import Mathlib

/-!
Verification of the passive ω-automata learning core of the `ralf` repository.

The development shallowly embeds the data structures and algorithms of the
repository in Lean: right congruences and deterministic transition systems
become lists of edges over natural-number state indices and symbols,
the sprout/dpainf synthesis loop becomes a fuel-indexed recursion, and
reachability computations become a generic saturation procedure (`closure`)
proved equivalent to existence of a connecting word.
-/

namespace Ralf

/-- Symbols of an alphabet are modelled as natural numbers. -/
abbrev Sym := Nat

section Closure

variable {α : Type} [DecidableEq α]

/-- The elements newly discovered in one saturation pass: successors of the
accumulated elements that are not yet accumulated, deduplicated. -/
def newElems (succs : α → List α) (acc : List α) : List α :=
  ((acc.flatMap succs).filter (fun x => decide (x ∉ acc))).dedup

/-- Fuel-indexed saturation of a list under a successor function. This models
the breadth-first traversals (`reachable_state_indices` and friends) of the
repository, whose implementation is not among the provided sources; the spec
describes them as computing exactly the states reachable from the start. -/
def closure (succs : α → List α) : Nat → List α → List α
  | 0, acc => acc
  | fuel + 1, acc =>
    let new := newElems succs acc
    if new.isEmpty then acc else closure succs fuel (acc ++ new)

/-- One-step successor relation underlying `closure`. -/
def StepRel (succs : α → List α) (a b : α) : Prop := b ∈ succs a

/-- Reachability: reflexive-transitive closure of the successor relation. -/
def Reach (succs : α → List α) : α → α → Prop :=
  Relation.ReflTransGen (StepRel succs)

theorem subset_closure (succs : α → List α) (fuel : Nat) (acc : List α) :
    acc ⊆ closure succs fuel acc := by
  induction fuel generalizing acc with
  | zero => simp [closure]
  | succ n ih =>
    intro x hx
    simp only [closure]
    split
    · exact hx
    · exact ih _ (List.mem_append_left _ hx)

theorem mem_newElems {succs : α → List α} {acc : List α} {x : α} :
    x ∈ newElems succs acc ↔ (∃ a ∈ acc, x ∈ succs a) ∧ x ∉ acc := by
  simp [newElems, List.mem_filter, List.mem_flatMap, and_comm]

theorem closure_sound (succs : α → List α) (fuel : Nat) (acc : List α) (x : α)
    (hx : x ∈ closure succs fuel acc) : ∃ a ∈ acc, Reach succs a x := by
  induction fuel generalizing acc with
  | zero => exact ⟨x, hx, Relation.ReflTransGen.refl⟩
  | succ n ih =>
    simp only [closure] at hx
    split at hx
    · exact ⟨x, hx, Relation.ReflTransGen.refl⟩
    · obtain ⟨b, hb, hreach⟩ := ih _ hx
      rcases List.mem_append.mp hb with hb | hb
      · exact ⟨b, hb, hreach⟩
      · obtain ⟨⟨a, ha, hstep⟩, -⟩ := mem_newElems.mp hb
        exact ⟨a, ha, Relation.ReflTransGen.trans
          (Relation.ReflTransGen.single hstep) hreach⟩

omit [DecidableEq α] in
theorem reach_mem_of_closed {succs : α → List α} {acc : List α}
    (hclosed : ∀ y ∈ acc, ∀ z ∈ succs y, z ∈ acc) {a x : α}
    (ha : a ∈ acc) (hr : Reach succs a x) : x ∈ acc := by
  induction hr with
  | refl => exact ha
  | tail _ hstep ih => exact hclosed _ ih _ hstep

theorem closure_complete (succs : α → List α) (U : List α)
    (hU : ∀ y ∈ U, ∀ z ∈ succs y, z ∈ U) :
    ∀ (fuel : Nat) (acc : List α), (∀ y ∈ acc, y ∈ U) → acc.Nodup →
      U.dedup.length ≤ fuel + acc.length →
      ∀ a ∈ acc, ∀ x, Reach succs a x → x ∈ closure succs fuel acc := by
  intro fuel
  induction fuel with
  | zero =>
    intro acc haccU hnd hfuel a ha x hr
    -- acc is a nodup subset of U of maximal size, hence contains all of U
    have hsub : acc ⊆ U.dedup := fun y hy => List.mem_dedup.mpr (haccU y hy)
    have hsp : acc.Subperm U.dedup := hnd.subperm hsub
    simp only [Nat.zero_add] at hfuel
    have hperm : acc.Perm U.dedup := by
      obtain ⟨l, hl, hsl⟩ := hsp
      have hlen : l.length = U.dedup.length := le_antisymm hsl.length_le
        (by simpa [hl.length_eq] using hfuel)
      exact hl.symm.trans (hsl.eq_of_length hlen ▸ List.Perm.refl _)
    have hUacc : ∀ y ∈ U, y ∈ acc := fun y hy =>
      hperm.mem_iff.mpr (List.mem_dedup.mpr hy)
    have hclosed : ∀ y ∈ acc, ∀ z ∈ succs y, z ∈ acc := fun y hy z hz =>
      hUacc z (hU y (haccU y hy) z hz)
    simpa [closure] using reach_mem_of_closed hclosed ha hr
  | succ n ih =>
    intro acc haccU hnd hfuel a ha x hr
    simp only [closure]
    split
    · next hnew =>
      have hempty : newElems succs acc = [] := by
        simpa [List.isEmpty_iff] using hnew
      have hclosed : ∀ y ∈ acc, ∀ z ∈ succs y, z ∈ acc := by
        intro y hy z hz
        by_contra hzacc
        have : z ∈ newElems succs acc := mem_newElems.mpr ⟨⟨y, hy, hz⟩, hzacc⟩
        simp [hempty] at this
      exact reach_mem_of_closed hclosed ha hr
    · next hnew =>
      have hne : newElems succs acc ≠ [] := by
        simpa [List.isEmpty_iff] using hnew
      have hnd' : (acc ++ newElems succs acc).Nodup := by
        refine List.nodup_append.mpr ⟨hnd, List.nodup_dedup _, ?_⟩
        intro y hy hz
        exact (mem_newElems.mp hz).2 hy
      have haccU' : ∀ y ∈ acc ++ newElems succs acc, y ∈ U := by
        intro y hy
        rcases List.mem_append.mp hy with hy | hy
        · exact haccU y hy
        · obtain ⟨⟨b, hb, hstep⟩, -⟩ := mem_newElems.mp hy
          exact hU b (haccU b hb) y hstep
      have hlen : 1 ≤ (newElems succs acc).length :=
        Nat.one_le_iff_ne_zero.mpr (fun h => hne (List.length_eq_zero.mp h))
      refine ih (acc ++ newElems succs acc) haccU' hnd' ?_ a
        (List.mem_append_left _ ha) x hr
      simp only [List.length_append]
      omega

/-- Membership in the saturation from a single start element characterizes
reachability, provided the successor function stays within a finite universe
`U` and the fuel is at least `U.dedup.length`. -/
theorem mem_closure_iff (succs : α → List α) (U : List α)
    (hU : ∀ y ∈ U, ∀ z ∈ succs y, z ∈ U) (s : α) (hs : s ∈ U)
    (fuel : Nat) (hfuel : U.dedup.length ≤ fuel + 1) (x : α) :
    x ∈ closure succs fuel [s] ↔ Reach succs s x := by
  constructor
  · intro hx
    obtain ⟨a, ha, hr⟩ := closure_sound succs fuel [s] x hx
    simp only [List.mem_singleton] at ha
    exact ha ▸ hr
  · intro hr
    exact closure_complete succs U hU fuel [s] (by simpa using hs)
      (List.nodup_singleton s) (by simpa using hfuel) s (by simp) x hr

end Closure

/-! ## Right congruences and deterministic transition systems

A `RC` models the repository's `RightCongruence` (and, more generally, a
pointed deterministic transition system with unlabelled states): states are
the indices `0, …, size - 1` in creation order, `initial` is the designated
initial class and `edges` lists the transitions `(source, symbol, target)`.
-/

structure RC where
  size : Nat
  initial : Nat
  edges : List (Nat × Sym × Nat)
deriving DecidableEq

/-- The unique outgoing edge of `q` on symbol `a`, if any. Models the
deterministic successor lookup of the transition-system substrate. -/
def RC.edgeFrom (c : RC) (q : Nat) (a : Sym) : Option Nat :=
  (c.edges.find? (fun e => decide (e.1 = q ∧ e.2.1 = a))).map (fun e => e.2.2)

/-- Modelled from the spec: `reached_state_index_from(q, w)` runs the finite
word `w` from `q` one symbol at a time and returns the reached state, or
`none` if the transition is undefined at any step (the implementation of the
run machinery is not among the provided sources). -/
def RC.runFrom (c : RC) (q : Nat) : List Sym → Option Nat
  | [] => some q
  | a :: w =>
    match c.edgeFrom q a with
    | none => none
    | some t => c.runFrom t w

/-- Modelled from the spec: `reached_state_index(w)` runs `w` from the
initial state. -/
def RC.run (c : RC) (w : List Sym) : Option Nat := c.runFrom c.initial w

/-- One synchronous step of the product of two transition systems: defined
iff both components have the transition (spec §4.3). -/
def prodStep (c d : RC) (p : Nat × Nat) (a : Sym) : Option (Nat × Nat) :=
  match c.edgeFrom p.1 a, d.edgeFrom p.2 a with
  | some x, some y => some (x, y)
  | _, _ => none

/-- Running a finite word in the product from a given pair. -/
def prodRunFrom (c d : RC) (p : Nat × Nat) : List Sym → Option (Nat × Nat)
  | [] => some p
  | a :: w =>
    match prodStep c d p a with
    | none => none
    | some p' => prodRunFrom c d p' w

/-- All one-step successors of a product state: follow each symbol that
labels some edge leaving the first component. -/
def prodSuccs (c d : RC) (p : Nat × Nat) : List (Nat × Nat) :=
  ((c.edges.filter (fun e => decide (e.1 = p.1))).map (fun e => e.2.1)).filterMap
    (fun a => prodStep c d p a)

/-- A finite universe containing every product state the successor function
can produce, plus the initial pair. -/
def prodUniv (c d : RC) : List (Nat × Nat) :=
  (c.initial, d.initial) :: (c.edges.map (fun e => e.2.2)).product (d.edges.map (fun e => e.2.2))

/-- Modelled from the spec: the reachable state pairs of the product
`c × d` from the pair of initial states (spec §4.3: "Reachable indices of
the product witness pairs of states simultaneously reachable by the same
finite word"). -/
def reachableProd (c d : RC) : List (Nat × Nat) :=
  closure (prodSuccs c d) ((prodUniv c d).dedup.length) [(c.initial, d.initial)]

theorem edgeFrom_mem {c : RC} {q : Nat} {a : Sym} {t : Nat}
    (h : c.edgeFrom q a = some t) : ∃ e ∈ c.edges, e.1 = q ∧ e.2.1 = a ∧ e.2.2 = t := by
  unfold RC.edgeFrom at h
  obtain ⟨e, he, ht⟩ := Option.map_eq_some'.mp h
  have hmem := List.mem_of_find?_eq_some he
  have hpred := List.find?_some he
  simp only [decide_eq_true_eq] at hpred
  exact ⟨e, hmem, hpred.1, hpred.2, ht⟩

theorem mem_prodSuccs {c d : RC} {p b : Nat × Nat} :
    b ∈ prodSuccs c d p ↔ ∃ a, prodStep c d p a = some b := by
  constructor
  · intro hb
    obtain ⟨a, -, hstep⟩ := List.mem_filterMap.mp hb
    exact ⟨a, hstep⟩
  · rintro ⟨a, hstep⟩
    refine List.mem_filterMap.mpr ⟨a, ?_, hstep⟩
    have hx : ∃ x, c.edgeFrom p.1 a = some x := by
      unfold prodStep at hstep
      rcases hcx : c.edgeFrom p.1 a with - | x
      · simp [hcx] at hstep
      · exact ⟨x, rfl⟩
    obtain ⟨x, hx⟩ := hx
    obtain ⟨e, he, h1, h2, -⟩ := edgeFrom_mem hx
    refine List.mem_map.mpr ⟨e, List.mem_filter.mpr ⟨he, by simp [h1]⟩, h2⟩

theorem prodSuccs_mem_univ (c d : RC) (p b : Nat × Nat) (hb : b ∈ prodSuccs c d p) :
    b ∈ prodUniv c d := by
  obtain ⟨a, hstep⟩ := mem_prodSuccs.mp hb
  unfold prodStep at hstep
  rcases hcx : c.edgeFrom p.1 a with - | x <;> rcases hdy : d.edgeFrom p.2 a with - | y <;>
    simp [hcx, hdy] at hstep
  obtain ⟨e, he, -, -, he2⟩ := edgeFrom_mem hcx
  obtain ⟨f, hf, -, -, hf2⟩ := edgeFrom_mem hdy
  subst hstep
  refine List.mem_cons.mpr (Or.inr ?_)
  refine List.mem_product.mpr ⟨?_, ?_⟩
  · exact List.mem_map.mpr ⟨e, he, he2⟩
  · exact List.mem_map.mpr ⟨f, hf, hf2⟩

theorem prodRunFrom_append (c d : RC) (p : Nat × Nat) (w w' : List Sym) :
    prodRunFrom c d p (w ++ w') =
      (prodRunFrom c d p w).bind (fun p' => prodRunFrom c d p' w') := by
  induction w generalizing p with
  | nil => simp [prodRunFrom]
  | cons a w ih =>
    simp only [List.cons_append, prodRunFrom]
    rcases prodStep c d p a with - | p'
    · rfl
    · exact ih p'

theorem reach_iff_word (c d : RC) (s p : Nat × Nat) :
    Reach (prodSuccs c d) s p ↔ ∃ w, prodRunFrom c d s w = some p := by
  constructor
  · intro hr
    induction hr with
    | refl => exact ⟨[], rfl⟩
    | tail _ hstep ih =>
      obtain ⟨w, hw⟩ := ih
      obtain ⟨a, hstep'⟩ := mem_prodSuccs.mp hstep
      refine ⟨w ++ [a], ?_⟩
      rw [prodRunFrom_append, hw]
      simp [prodRunFrom, hstep']
  · rintro ⟨w, hw⟩
    induction w generalizing s with
    | nil =>
      simp only [prodRunFrom, Option.some.injEq] at hw
      exact hw ▸ Relation.ReflTransGen.refl
    | cons a w ih =>
      simp only [prodRunFrom] at hw
      rcases hstep : prodStep c d s a with - | p'
      · rw [hstep] at hw; exact absurd hw (by simp)
      · rw [hstep] at hw
        exact Relation.ReflTransGen.head (mem_prodSuccs.mpr ⟨a, hstep⟩) (ih p' hw)

/-- Membership in the computed reachable set of a product is equivalent to
reachability by a finite word from the pair of initial states. -/
theorem mem_reachableProd_iff (c d : RC) (p : Nat × Nat) :
    p ∈ reachableProd c d ↔
      ∃ w, prodRunFrom c d (c.initial, d.initial) w = some p := by
  rw [← reach_iff_word]
  exact mem_closure_iff (prodSuccs c d) (prodUniv c d)
    (fun y _hy z hz => prodSuccs_mem_univ c d y z hz)
    (c.initial, d.initial) (List.mem_cons_self _ _)
    ((prodUniv c d).dedup.length) (Nat.le_succ_of_le (Nat.le_refl _)) p

/-! ## Conflict relations -/

/-- A conflict relation (spec §4.5, `dpainf.rs`): two right-congruence-shaped
DFAs and a set of conflict pairs of their state indices, together with the
shared alphabet. -/
structure ConflictRelation where
  left : RC
  right : RC
  conflicts : List (Nat × Nat)
  alphabet : List Sym

/-- `ConflictRelation::consistent` from `dpainf.rs`: iterate the reachable
indices of `cong × left`, and for each `(c, ℓ)` scan the reachable indices
`(c, r)` of `cong × right` with the same congruence component; the congruence
is inconsistent iff some such `(ℓ, r)` is a conflict pair. -/
def ConflictRelation.consistent (T : ConflictRelation) (cong : RC) : Bool :=
  (reachableProd cong T.left).all (fun p =>
    (reachableProd cong T.right).all (fun q =>
      !(decide (p.1 = q.1) && decide ((p.2, q.2) ∈ T.conflicts))))

/-- `ConflictRelation::threshold` from `dpainf.rs`: twice the product of the
sizes of the two DFAs. -/
def ConflictRelation.threshold (T : ConflictRelation) : Nat :=
  2 * T.left.size * T.right.size

/-- C3: `T.consistent(~)` returns false if and only if there are a class `c`
of the congruence and DFA states `ℓ` of the left and `r` of the right DFA
such that `(c, ℓ)` is reachable in the product `~ × L`, `(c, r)` is reachable
in the product `~ × R`, and `(ℓ, r)` is a conflict pair. -/
theorem conflictRelation_consistent_eq_false_iff (T : ConflictRelation) (cong : RC) :
    T.consistent cong = false ↔
      ∃ cls l r,
        (∃ w, prodRunFrom cong T.left (cong.initial, T.left.initial) w = some (cls, l)) ∧
        (∃ w, prodRunFrom cong T.right (cong.initial, T.right.initial) w = some (cls, r)) ∧
        (l, r) ∈ T.conflicts := by
  unfold ConflictRelation.consistent
  rw [List.all_eq_false]
  constructor
  · rintro ⟨p, hp, hinner⟩
    rw [Bool.not_eq_true, List.all_eq_false] at hinner
    obtain ⟨q, hq, hq2⟩ := hinner
    simp only [Bool.not_eq_true, Bool.not_eq_false', Bool.and_eq_true,
      decide_eq_true_eq] at hq2
    refine ⟨p.1, p.2, q.2, ?_, ?_, hq2.2⟩
    · exact (mem_reachableProd_iff cong T.left p).mp hp
    · have := (mem_reachableProd_iff cong T.right q).mp hq
      rw [hq2.1]
      simpa using this
  · rintro ⟨cls, l, r, hl, hr, hconf⟩
    refine ⟨(cls, l), (mem_reachableProd_iff cong T.left (cls, l)).mpr hl, ?_⟩
    rw [Bool.not_eq_true, List.all_eq_false]
    refine ⟨(cls, r), (mem_reachableProd_iff cong T.right (cls, r)).mpr hr, ?_⟩
    simp [hconf]

/-! ## The sprout / dpainf algorithm

The embedding of `dpainf` from `dpainf.rs`. The generic `ConsistencyCheck`
trait becomes the structure `CCheck` bundling its three methods; the
additional constraints become a list of boolean predicates on congruences.
Wall-clock timeouts are abstracted by a function from the iteration counter
to a boolean (the outcome of the elapsed-time comparison at the top of each
loop iteration); recursion is fuel-indexed. -/

/-- A consistency check (the `ConsistencyCheck` trait of `dpainf.rs`):
a consistency predicate on congruences, a state threshold and an alphabet. -/
structure CCheck where
  consistent : RC → Bool
  threshold : Nat
  alphabet : List Sym

/-- The `ConsistencyCheck` instance of `ConflictRelation`. -/
def ConflictRelation.toCheck (T : ConflictRelation) : CCheck :=
  { consistent := T.consistent, threshold := T.threshold, alphabet := T.alphabet }

/-- Does `q` already have an outgoing edge on `a`? -/
def RC.hasEdgeFrom (c : RC) (q : Nat) (a : Sym) : Bool :=
  c.edges.any (fun e => decide (e.1 = q ∧ e.2.1 = a))

/-- `add_edge` (spec §4.1): inserts the edge `q --a--> t`; a prior edge from
`q` on the same expression is replaced. -/
def RC.addEdge (c : RC) (q : Nat) (a : Sym) (t : Nat) : RC :=
  { c with edges := (c.edges.filter (fun e => !decide (e.1 = q ∧ e.2.1 = a))) ++ [(q, a, t)] }

/-- `add_state`: appends a fresh state; the new index is the old size. -/
def RC.addState (c : RC) : RC := { c with size := c.size + 1 }

/-- The right congruence `dpainf` starts from
(`RightCongruence::new_with_initial_color`): one class ε with no edges. -/
def rcEpsilon : RC := { size := 1, initial := 0, edges := [] }

/-- Result of the embedded `dpainf` loop. `assertFailed` models the
`assert!(cong.add_edge(..).is_none())` panic, `outOfFuel` is the artifact of
fuel-indexed recursion (the Rust loop needs no fuel; every claim below is
stated for arbitrary fuel). -/
inductive DpaRes where
  | ok (c : RC)
  | thresholdExceeded (c : RC) (k : Nat)
  | timeout (c : RC)
  | assertFailed
  | outOfFuel
deriving DecidableEq

/-- The congruence carried by a `dpainf` result, if any: `Ok`, `Threshold`
and `Timeout` all carry the congruence built so far. -/
def DpaRes.congOf : DpaRes → Option RC
  | .ok c => some c
  | .thresholdExceeded c _ => some c
  | .timeout c => some c
  | _ => none

/-- The inner `for target in 0..cong.size()` loop of `dpainf`: try each
candidate target in ascending creation order, skipping ε when transitions
into ε are disallowed; tentatively add the edge and keep the first target for
which all checks are consistent. On failure the Rust code removes the
tentative edge again (`remove_edges_between_matching`), which restores the
congruence because the popped pair has no outgoing edge. -/
def firstConsistent (cons : RC → Bool) (allowEps : Bool) (cong : RC) (q : Nat) (a : Sym) :
    List Nat → Option RC
  | [] => none
  | t :: ts =>
    if !allowEps && t == 0 then firstConsistent cons allowEps cong q a ts
    else
      let c' := cong.addEdge q a t
      if cons c' then some c' else firstConsistent cons allowEps cong q a ts

/-- The main loop of `dpainf` (lines 343–389 of `dpainf.rs`): pop a missing
transition, try existing targets in ascending order, otherwise check the
threshold and add a fresh state whose missing transitions are enqueued in
alphabet order. -/
def dpainfLoop (cons : RC → Bool) (thr : Nat) (alpha : List Sym) (allowEps : Bool)
    (tf : Nat → Bool) : Nat → Nat → RC → List (Nat × Sym) → DpaRes
  | 0, _, _, _ => .outOfFuel
  | fuel + 1, iter, cong, queue =>
    match queue with
    | [] => .ok cong
    | (q, a) :: rest =>
      if tf iter then .timeout cong
      else if cong.hasEdgeFrom q a && (allowEps || decide (1 < cong.size)) then .assertFailed
      else
        match firstConsistent cons allowEps cong q a (List.range cong.size) with
        | some c' => dpainfLoop cons thr alpha allowEps tf fuel (iter + 1) c' rest
        | none =>
          if thr < cong.size then .thresholdExceeded cong thr
          else
            let t := cong.size
            let c' := (cong.addState).addEdge q a t
            dpainfLoop cons thr alpha allowEps tf fuel (iter + 1) c'
              (rest ++ alpha.map (fun s => (t, s)))

/-- `dpainf` from `dpainf.rs`: start from the one-class congruence ε, seed
the queue with the missing transitions `(ε, a)` in alphabet order, and run
the loop. -/
def dpainf (chk : CCheck) (adds : List (RC → Bool)) (allowEps : Bool)
    (tf : Nat → Bool) (fuel : Nat) : DpaRes :=
  dpainfLoop (fun c => chk.consistent c && adds.all (fun f => f c)) chk.threshold
    chk.alphabet allowEps tf fuel 0 rcEpsilon (chk.alphabet.map (fun s => (0, s)))

/-- The timeout predicate of a run whose wall-clock budget is never
exceeded. -/
def neverTimeout : Nat → Bool := fun _ => false

theorem mem_addEdge {c : RC} {q : Nat} {a : Sym} {t : Nat} {e : Nat × Sym × Nat} :
    e ∈ (c.addEdge q a t).edges ↔
      (e ∈ c.edges ∧ ¬(e.1 = q ∧ e.2.1 = a)) ∨ e = (q, a, t) := by
  simp only [RC.addEdge, List.mem_append, List.mem_filter, List.mem_singleton,
    Bool.not_eq_true', decide_eq_false_iff_not]

theorem firstConsistent_some {cons : RC → Bool} {allowEps : Bool} {cong : RC}
    {q : Nat} {a : Sym} : ∀ {ts : List Nat} {c' : RC},
    firstConsistent cons allowEps cong q a ts = some c' →
    ∃ t ∈ ts, c' = cong.addEdge q a t ∧ cons c' = true ∧ (allowEps = true ∨ t ≠ 0) := by
  intro ts
  induction ts with
  | nil => intro c' h; simp [firstConsistent] at h
  | cons t ts ih =>
    intro c' h
    simp only [firstConsistent] at h
    split at h
    · next hskip =>
      obtain ⟨t', ht', rest⟩ := ih h
      exact ⟨t', List.mem_cons_of_mem _ ht', rest⟩
    · next hskip =>
      simp only [Bool.not_eq_true', Bool.and_eq_true, Bool.not_eq_true, beq_iff_eq,
        not_and] at hskip
      split at h
      · next hcons =>
        cases h
        refine ⟨t, List.mem_cons_self _ _, rfl, hcons, ?_⟩
        rcases hAE : allowEps with - | -
        · exact Or.inr (hskip (by simp [hAE]))
        · exact Or.inl rfl
      · obtain ⟨t', ht', rest⟩ := ih h
        exact ⟨t', List.mem_cons_of_mem _ ht', rest⟩

theorem firstConsistent_none {cons : RC → Bool} {allowEps : Bool} {cong : RC}
    {q : Nat} {a : Sym} : ∀ {ts : List Nat},
    firstConsistent cons allowEps cong q a ts = none →
    ∀ t ∈ ts, (allowEps = true ∨ t ≠ 0) → cons (cong.addEdge q a t) = false := by
  intro ts
  induction ts with
  | nil => intro h t ht; simp at ht
  | cons t₀ ts ih =>
    intro h t ht hallowed
    simp only [firstConsistent] at h
    split at h
    · next hskip =>
      simp only [Bool.and_eq_true, Bool.not_eq_true', beq_iff_eq] at hskip
      rcases List.mem_cons.mp ht with rfl | ht'
      · rcases hallowed with hA | hne
        · rw [hA] at hskip; exact absurd hskip.1 (by simp)
        · exact absurd hskip.2 hne
      · exact ih h t ht' hallowed
    · split at h
      · exact absurd h (by simp)
      · next hcons =>
        rcases List.mem_cons.mp ht with rfl | ht'
        · exact Bool.not_eq_true _ ▸ (by simpa using hcons)
        · exact ih h t ht' hallowed

@[simp] theorem addEdge_size (c : RC) (q : Nat) (a : Sym) (t : Nat) :
    (c.addEdge q a t).size = c.size := rfl

@[simp] theorem addEdge_initial (c : RC) (q : Nat) (a : Sym) (t : Nat) :
    (c.addEdge q a t).initial = c.initial := rfl

@[simp] theorem addState_size (c : RC) : c.addState.size = c.size + 1 := rfl

@[simp] theorem addState_initial (c : RC) : c.addState.initial = c.initial := rfl

@[simp] theorem addState_edges (c : RC) : c.addState.edges = c.edges := rfl

theorem hasEdgeFrom_eq_true_iff {c : RC} {q : Nat} {a : Sym} :
    c.hasEdgeFrom q a = true ↔ ∃ t, (q, a, t) ∈ c.edges := by
  unfold RC.hasEdgeFrom
  rw [List.any_eq_true]
  constructor
  · rintro ⟨e, he, hpred⟩
    obtain ⟨e1, e2, e3⟩ := e
    simp only [decide_eq_true_eq] at hpred
    obtain ⟨rfl, rfl⟩ := hpred
    exact ⟨e3, he⟩
  · rintro ⟨t, ht⟩
    exact ⟨(q, a, t), ht, by simp⟩

theorem hasEdgeFrom_eq_false_iff {c : RC} {q : Nat} {a : Sym} :
    c.hasEdgeFrom q a = false ↔ ∀ t, (q, a, t) ∉ c.edges := by
  rw [← Bool.not_eq_true, hasEdgeFrom_eq_true_iff]
  simp

theorem hasEdgeFrom_addEdge_same (c : RC) (q : Nat) (a : Sym) (t : Nat) :
    (c.addEdge q a t).hasEdgeFrom q a = true :=
  hasEdgeFrom_eq_true_iff.mpr ⟨t, mem_addEdge.mpr (Or.inr rfl)⟩

theorem hasEdgeFrom_addEdge_other {c : RC} {q : Nat} {a : Sym} {t : Nat}
    {q₁ : Nat} {a₁ : Sym} (h : ¬(q₁ = q ∧ a₁ = a)) :
    (c.addEdge q a t).hasEdgeFrom q₁ a₁ = c.hasEdgeFrom q₁ a₁ := by
  rcases h2 : c.hasEdgeFrom q₁ a₁ with - | -
  · rw [hasEdgeFrom_eq_false_iff]
    intro t₁ hmem
    rcases mem_addEdge.mp hmem with ⟨hold, -⟩ | hnew
    · exact (hasEdgeFrom_eq_false_iff.mp h2) t₁ hold
    · simp only [Prod.mk.injEq] at hnew
      exact h ⟨hnew.1, hnew.2.1⟩
  · rw [hasEdgeFrom_eq_true_iff]
    obtain ⟨t₁, ht₁⟩ := hasEdgeFrom_eq_true_iff.mp h2
    exact ⟨t₁, mem_addEdge.mpr (Or.inl ⟨ht₁, h⟩)⟩

/-- Invariant-carrying induction for the success case of the `dpainf` loop:
a run that returns `Ok` yields a congruence that satisfies all checks, has
exactly one outgoing edge per state/symbol pair, and has at most one state
more than the threshold. -/
theorem dpainfLoop_ok_post (cons : RC → Bool) (thr : Nat) (alpha : List Sym)
    (allowEps : Bool) (hal : alpha ≠ []) (hndalpha : alpha.Nodup) :
    ∀ (fuel iter : Nat) (cong : RC) (queue : List (Nat × Sym)) (out : RC),
      (∀ e ∈ cong.edges, e.1 < cong.size ∧ e.2.1 ∈ alpha ∧ e.2.2 < cong.size) →
      (∀ q a t t', (q, a, t) ∈ cong.edges → (q, a, t') ∈ cong.edges → t = t') →
      queue.Nodup →
      (∀ p ∈ queue, p.1 < cong.size ∧ p.2 ∈ alpha) →
      (∀ q a, q < cong.size → a ∈ alpha → ((q, a) ∈ queue ↔ cong.hasEdgeFrom q a = false)) →
      cong.size ≤ thr + 1 →
      (queue = [] → cons cong = true) →
      dpainfLoop cons thr alpha allowEps neverTimeout fuel iter cong queue = .ok out →
      cons out = true ∧
        (∀ q a, q < out.size → a ∈ alpha → ∃! t, (q, a, t) ∈ out.edges) ∧
        out.size ≤ thr + 1 := by
  intro fuel
  induction fuel with
  | zero =>
    intro iter cong queue out _ _ _ _ _ _ _ h
    simp [dpainfLoop] at h
  | succ n ih =>
    intro iter cong queue out hwf hone hqnd hqmem hqiff hsize hcons h
    rcases queue with - | ⟨⟨q, a⟩, rest⟩
    · simp only [dpainfLoop] at h
      have hco := DpaRes.ok.inj h
      subst hco
      refine ⟨hcons rfl, ?_, hsize⟩
      intro q a hq ha
      have hhe : cong.hasEdgeFrom q a = true := by
        rcases hE : cong.hasEdgeFrom q a with - | -
        · exact absurd ((hqiff q a hq ha).mpr hE) (List.not_mem_nil _)
        · rfl
      obtain ⟨t, ht⟩ := hasEdgeFrom_eq_true_iff.mp hhe
      exact ⟨t, ht, fun t' ht' => hone q a t' t ht' ht⟩
    · have hq : q < cong.size := (hqmem _ (List.mem_cons_self _ _)).1
      have ha : a ∈ alpha := (hqmem _ (List.mem_cons_self _ _)).2
      have hnoedge : cong.hasEdgeFrom q a = false :=
        (hqiff q a hq ha).mp (List.mem_cons_self _ _)
      simp only [dpainfLoop, neverTimeout, Bool.false_eq_true, if_false, hnoedge,
        Bool.false_and] at h
      split at h
      · next c' heq =>
        obtain ⟨t, htmem, hc', hconsc', -⟩ := firstConsistent_some heq
        subst hc'
        have htlt : t < cong.size := List.mem_range.mp htmem
        refine ih (iter + 1) (cong.addEdge q a t) rest out ?_ ?_ ?_ ?_ ?_ ?_ ?_ h
        · intro e he
          rcases mem_addEdge.mp he with ⟨hold, -⟩ | rfl
        -- the tentative edge keeps all old edges well-formed
          · simpa using hwf e hold
          · simpa using ⟨hq, ha, htlt⟩
        · intro q₁ a₁ t₁ t₂ h₁ h₂
          rcases mem_addEdge.mp h₁ with ⟨h₁m, h₁n⟩ | h₁e <;>
            rcases mem_addEdge.mp h₂ with ⟨h₂m, h₂n⟩ | h₂e
          · exact hone q₁ a₁ t₁ t₂ h₁m h₂m
          · simp only [Prod.mk.injEq] at h₂e
            exact absurd ⟨h₂e.1, h₂e.2.1⟩ h₁n
          · simp only [Prod.mk.injEq] at h₁e
            exact absurd ⟨h₁e.1, h₁e.2.1⟩ h₂n
          · simp only [Prod.mk.injEq] at h₁e h₂e
            rw [h₁e.2.2, h₂e.2.2]
        · exact (List.nodup_cons.mp hqnd).2
        · intro p hp
          simpa using hqmem p (List.mem_cons_of_mem _ hp)
        · intro q₁ a₁ hq₁ ha₁
          simp only [addEdge_size] at hq₁
          by_cases hsame : q₁ = q ∧ a₁ = a
          · obtain ⟨rfl, rfl⟩ := hsame
            constructor
            · intro hmem
              exact absurd hmem (List.nodup_cons.mp hqnd).1
            · intro hfalse
              rw [hasEdgeFrom_addEdge_same] at hfalse
              simp at hfalse
          · rw [hasEdgeFrom_addEdge_other hsame, ← hqiff q₁ a₁ hq₁ ha₁]
            constructor
            · exact fun hm => List.mem_cons_of_mem _ hm
            · intro hm
              rcases List.mem_cons.mp hm with hhead | htail
              · simp only [Prod.mk.injEq] at hhead
                exact absurd hhead hsame
              · exact htail
        · simpa using hsize
        · exact fun _ => hconsc'
      · next heq =>
        split at h
        · simp at h
        · next hthr =>
          refine ih (iter + 1) ((cong.addState).addEdge q a cong.size)
            (rest ++ alpha.map (fun s => (cong.size, s))) out ?_ ?_ ?_ ?_ ?_ ?_ ?_ h
          · intro e he
            rcases mem_addEdge.mp he with ⟨hold, -⟩ | rfl
            · simp only [addState_edges] at hold
              obtain ⟨h1, h2, h3⟩ := hwf e hold
              simp only [addEdge_size, addState_size]
              exact ⟨Nat.lt_succ_of_lt h1, h2, Nat.lt_succ_of_lt h3⟩
            · simp only [addEdge_size, addState_size]
              exact ⟨Nat.lt_succ_of_lt hq, ha, Nat.lt_succ_self _⟩
          · intro q₁ a₁ t₁ t₂ h₁ h₂
            rcases mem_addEdge.mp h₁ with ⟨h₁m, h₁n⟩ | h₁e <;>
              rcases mem_addEdge.mp h₂ with ⟨h₂m, h₂n⟩ | h₂e
            · exact hone q₁ a₁ t₁ t₂ (by simpa using h₁m) (by simpa using h₂m)
            · simp only [Prod.mk.injEq] at h₂e
              exact absurd ⟨h₂e.1, h₂e.2.1⟩ h₁n
            · simp only [Prod.mk.injEq] at h₁e
              exact absurd ⟨h₁e.1, h₁e.2.1⟩ h₂n
            · simp only [Prod.mk.injEq] at h₁e h₂e
              rw [h₁e.2.2, h₂e.2.2]
          · refine List.nodup_append.mpr ⟨(List.nodup_cons.mp hqnd).2, ?_, ?_⟩
            · exact hndalpha.map
                (fun s₁ s₂ hss => by simpa using hss)
            · intro x hx hxm
              obtain ⟨s, -, hs⟩ := List.mem_map.mp hxm
              have hx1 : x.1 < cong.size :=
                (hqmem x (List.mem_cons_of_mem _ hx)).1
              rw [← hs] at hx1
              exact absurd hx1 (lt_irrefl _)
          · intro p hp
            rcases List.mem_append.mp hp with hp | hp
            · obtain ⟨h1, h2⟩ := hqmem p (List.mem_cons_of_mem _ hp)
              simp only [addEdge_size, addState_size]
              exact ⟨Nat.lt_succ_of_lt h1, h2⟩
            · obtain ⟨s, hs, rfl⟩ := List.mem_map.mp hp
              simp only [addEdge_size, addState_size]
              exact ⟨Nat.lt_succ_self _, hs⟩
          · intro q₁ a₁ hq₁ ha₁
            simp only [addEdge_size, addState_size] at hq₁
            by_cases hqt : q₁ = cong.size
            · subst hqt
              constructor
              · intro _
                rw [hasEdgeFrom_eq_false_iff]
                intro t₁ hmem
                rcases mem_addEdge.mp hmem with ⟨hold, -⟩ | hnew
                · have := (hwf _ (by simpa using hold)).1
                  exact absurd this (lt_irrefl _)
                · simp only [Prod.mk.injEq] at hnew
                  rw [hnew.1] at hq
                  exact absurd hq (lt_irrefl _)
              · intro _
                exact List.mem_append.mpr (Or.inr (List.mem_map.mpr ⟨a₁, ha₁, rfl⟩))
            · have hq₁lt : q₁ < cong.size :=
                Nat.lt_of_le_of_ne (Nat.le_of_lt_succ hq₁) hqt
              have hnotmap : (q₁, a₁) ∉ alpha.map (fun s => (cong.size, s)) := by
                intro hm
                obtain ⟨s, -, hs⟩ := List.mem_map.mp hm
                exact hqt (by simpa using congrArg Prod.fst hs.symm)
              have hmemiff : (q₁, a₁) ∈ rest ++ alpha.map (fun s => (cong.size, s)) ↔
                  (q₁, a₁) ∈ rest := by
                rw [List.mem_append]
                exact ⟨fun hc => hc.resolve_right hnotmap, Or.inl⟩
              rw [hmemiff]
              by_cases hsame : q₁ = q ∧ a₁ = a
              · obtain ⟨rfl, rfl⟩ := hsame
                constructor
                · intro hmem
                  exact absurd hmem (List.nodup_cons.mp hqnd).1
                · intro hfalse
                  rw [hasEdgeFrom_addEdge_same] at hfalse
                  simp at hfalse
              · rw [hasEdgeFrom_addEdge_other hsame]
                have hAS : (cong.addState).hasEdgeFrom q₁ a₁ = cong.hasEdgeFrom q₁ a₁ := rfl
                rw [hAS, ← hqiff q₁ a₁ hq₁lt ha₁]
                constructor
                · exact fun hm => List.mem_cons_of_mem _ hm
                · intro hm
                  rcases List.mem_cons.mp hm with hhead | htail
                  · simp only [Prod.mk.injEq] at hhead
                    exact absurd hhead hsame
                  · exact htail
          · simp only [addEdge_size, addState_size]
            exact Nat.succ_le_succ (Nat.le_of_not_lt hthr)
          · intro habs
            obtain ⟨-, hmap⟩ := List.append_eq_nil.mp habs
            exact absurd (List.map_eq_nil_iff.mp hmap) hal

/-- C1 (amended): if the alphabet of the conflict relation `T` is nonempty
and duplicate-free and `dpainf` returns `Ok(~)` for `T` and any list of
additional consistency checks (no timeout), then `T.consistent(~)` is true,
every pair `(q, a)` of a state of `~` and an alphabet symbol has exactly one
outgoing edge, and `~` has at most `T.threshold() + 1` states. The bound
`T.threshold()` stated by the spec can be exceeded by exactly one state, see
the counterexample `dpainf_exceeds_threshold_on_success`. -/
theorem dpainf_ok_postconditions (T : ConflictRelation) (adds : List (RC → Bool))
    (allowEps : Bool) (fuel : Nat) (out : RC)
    (hal : T.alphabet ≠ []) (hnd : T.alphabet.Nodup)
    (h : dpainf T.toCheck adds allowEps neverTimeout fuel = .ok out) :
    T.consistent out = true ∧
      (∀ q a, q < out.size → a ∈ T.alphabet → ∃! t, (q, a, t) ∈ out.edges) ∧
      out.size ≤ T.threshold + 1 := by
  unfold dpainf at h
  have hpost := dpainfLoop_ok_post
    (fun c => T.toCheck.consistent c && adds.all (fun f => f c))
    T.toCheck.threshold T.toCheck.alphabet allowEps hal hnd fuel 0 rcEpsilon
    (T.toCheck.alphabet.map (fun s => (0, s))) out
    (by intro e he; simp [rcEpsilon] at he)
    (by intro q a t t' ht; simp [rcEpsilon] at ht)
    (hnd.map (fun s₁ s₂ hss => by simpa using hss))
    (by
      intro p hp
      obtain ⟨s, hs, rfl⟩ := List.mem_map.mp hp
      exact ⟨Nat.lt_irrefl 0 |> fun _ => Nat.zero_lt_one, hs⟩)
    (by
      intro q a hq ha
      have hq0 : q = 0 := Nat.lt_one_iff.mp hq
      subst hq0
      constructor
      · intro _; rfl
      · intro _; exact List.mem_map.mpr ⟨a, ha, rfl⟩)
    (Nat.succ_le_succ (Nat.zero_le _))
    (by
      intro habs
      exact absurd (List.map_eq_nil_iff.mp habs) hal)
    h
  have h1 := hpost.1
  rw [Bool.and_eq_true] at h1
  exact ⟨h1.1, hpost.2.1, hpost.2.2⟩

/-- The conflict relation of the concrete examples: two one-state DFAs
without edges, no conflict pairs, alphabet `{0}`. Its threshold is `2`, and
its consistency check accepts every congruence. -/
def cexConflict : ConflictRelation :=
  { left := { size := 1, initial := 0, edges := [] },
    right := { size := 1, initial := 0, edges := [] },
    conflicts := [],
    alphabet := [0] }

/-- A legitimate additional consistency check: accept only congruences with
at least three classes. Any object implementing the `ConsistencyCheck` trait
may compute such a predicate. -/
def cexCheck : RC → Bool := fun c => decide (3 ≤ c.size)

/-- The congruence the counterexample run constructs. -/
def cexOut : RC := { size := 3, initial := 0, edges := [(0, 0, 1), (1, 0, 2), (2, 0, 0)] }

/-- C1 counterexample: running `dpainf` on `cexConflict` (threshold `2`)
together with the additional check `cexCheck` succeeds with a congruence of
`3 > 2` states, refuting the claimed bound `|Q(~)| ≤ T.threshold()`: the
state pushing the size to threshold + 1 is added before the bound is checked,
and all remaining missing transitions then find consistent targets. -/
theorem dpainf_exceeds_threshold_on_success :
    dpainf cexConflict.toCheck [cexCheck] true neverTimeout 10 = .ok cexOut ∧
      cexConflict.threshold = 2 ∧ 2 < cexOut.size := by
  refine ⟨by decide, rfl, by decide⟩

/-- The congruence computed by the run used as witness for C1. -/
def witOut : RC := { size := 1, initial := 0, edges := [(0, 0, 0)] }

/-- Witness for C1 at a concrete input: `dpainf` on `cexConflict` with no
additional checks returns the one-class congruence with a self-loop, which
satisfies all three postconditions. -/
theorem dpainf_ok_postconditions_witness :
    cexConflict.consistent witOut = true ∧
      (∀ q a, q < witOut.size → a ∈ cexConflict.alphabet → ∃! t, (q, a, t) ∈ witOut.edges) ∧
      witOut.size ≤ cexConflict.threshold + 1 :=
  dpainf_ok_postconditions cexConflict [] true 10 witOut
    (by decide) (by decide) (by decide)

theorem firstConsistent_append (cons : RC → Bool) (allowEps : Bool) (cong : RC)
    (q : Nat) (a : Sym) (ts ts' : List Nat) :
    firstConsistent cons allowEps cong q a (ts ++ ts') =
      match firstConsistent cons allowEps cong q a ts with
      | some c => some c
      | none => firstConsistent cons allowEps cong q a ts' := by
  induction ts with
  | nil => simp [firstConsistent]
  | cons t ts ih =>
    simp only [List.cons_append, firstConsistent]
    split
    · exact ih
    · split
      · rfl
      · exact ih

/-- The inner target loop of `dpainf` chooses the least consistent candidate:
when it succeeds on the candidate list `0, …, n-1` (ascending creation
order), the accepted target `t` is consistent and every allowed smaller
target is inconsistent. -/
theorem firstConsistent_range_minimal (cons : RC → Bool) (allowEps : Bool) (cong : RC)
    (q : Nat) (a : Sym) : ∀ (n : Nat) (c' : RC),
    firstConsistent cons allowEps cong q a (List.range n) = some c' →
    ∃ t, t < n ∧ c' = cong.addEdge q a t ∧ (allowEps = true ∨ t ≠ 0) ∧ cons c' = true ∧
      ∀ t' < t, (allowEps = true ∨ t' ≠ 0) → cons (cong.addEdge q a t') = false := by
  intro n
  induction n with
  | zero => intro c' h; simp [List.range_zero, firstConsistent] at h
  | succ n ih =>
    intro c' h
    rw [List.range_succ, firstConsistent_append] at h
    split at h
    · next c₀ hfc =>
      obtain ⟨t, htn, hc, hall, hcons, hmin⟩ := ih c₀ hfc
      cases h
      exact ⟨t, Nat.lt_succ_of_lt htn, hc, hall, hcons, hmin⟩
    · next hfc =>
      simp only [firstConsistent] at h
      split at h
      · simp [firstConsistent] at h
      · next hskip =>
        simp only [Bool.and_eq_true, Bool.not_eq_true', beq_iff_eq, not_and] at hskip
        split at h
        · next hcons =>
          cases h
          refine ⟨n, Nat.lt_succ_self _, rfl, ?_, hcons, ?_⟩
          · rcases hAE : allowEps with - | -
            · exact Or.inr (hskip (by simp [hAE]))
            · exact Or.inl rfl
          · intro t' ht' hall'
            exact firstConsistent_none hfc t' (List.mem_range.mpr ht') hall'
        · simp [firstConsistent] at h

/-- C7: `dpainf` is deterministic. Two runs on the same conflict relation,
the same additional checks and the same ε-flag (with no timeout) produce
identical congruences; the run is fully determined by its inputs: the queue
is seeded with the missing transitions `(ε, a)` in alphabet order, and
candidate targets are tried in ascending creation order, the least
consistent target being the one chosen. -/
theorem dpainf_deterministic (chk chk' : CCheck) (adds adds' : List (RC → Bool))
    (eps eps' : Bool) (fuel : Nat)
    (h1 : chk = chk') (h2 : adds = adds') (h3 : eps = eps') :
    dpainf chk adds eps neverTimeout fuel = dpainf chk' adds' eps' neverTimeout fuel ∧
      dpainf chk adds eps neverTimeout fuel =
        dpainfLoop (fun c => chk.consistent c && adds.all (fun f => f c)) chk.threshold
          chk.alphabet eps neverTimeout fuel 0 rcEpsilon
          (chk.alphabet.map (fun s => (0, s))) ∧
      (∀ (cong c' : RC) (q : Nat) (a : Sym),
        firstConsistent (fun c => chk.consistent c && adds.all (fun f => f c)) eps cong q a
            (List.range cong.size) = some c' →
        ∃ t, t < cong.size ∧ c' = cong.addEdge q a t ∧ (eps = true ∨ t ≠ 0) ∧
          (chk.consistent c' && adds.all (fun f => f c')) = true ∧
          ∀ t' < t, (eps = true ∨ t' ≠ 0) →
            (chk.consistent (cong.addEdge q a t') &&
              adds.all (fun f => f (cong.addEdge q a t'))) = false) := by
  subst h1 h2 h3
  refine ⟨rfl, rfl, ?_⟩
  intro cong c' q a h
  exact firstConsistent_range_minimal _ eps cong q a cong.size c' h

/-- A trivial consistency check used by concrete runs: always consistent,
threshold `5`, alphabet `{0}`. -/
def chkTriv : CCheck := { consistent := fun _ => true, threshold := 5, alphabet := [0] }

/-- Witness for C7 at a concrete input. -/
theorem dpainf_deterministic_witness :
    dpainf chkTriv [] true neverTimeout 5 = dpainf chkTriv [] true neverTimeout 5 ∧
      dpainf chkTriv [] true neverTimeout 5 =
        dpainfLoop (fun c => chkTriv.consistent c && List.all ([] : List (RC → Bool)) (fun f => f c))
          chkTriv.threshold chkTriv.alphabet true neverTimeout 5 0 rcEpsilon
          (chkTriv.alphabet.map (fun s => (0, s))) ∧
      (∀ (cong c' : RC) (q : Nat) (a : Sym),
        firstConsistent (fun c => chkTriv.consistent c && List.all ([] : List (RC → Bool)) (fun f => f c)) true cong q a
            (List.range cong.size) = some c' →
        ∃ t, t < cong.size ∧ c' = cong.addEdge q a t ∧ (true = true ∨ t ≠ 0) ∧
          (chkTriv.consistent c' && List.all ([] : List (RC → Bool)) (fun f => f c')) = true ∧
          ∀ t' < t, (true = true ∨ t' ≠ 0) →
            (chkTriv.consistent (cong.addEdge q a t') &&
              List.all ([] : List (RC → Bool)) (fun f => f (cong.addEdge q a t'))) = false) :=
  dpainf_deterministic chkTriv chkTriv [] [] true true 5 rfl rfl rfl

/-- Inductive core for C10: with `allow_transitions_into_epsilon = false`,
every congruence carried by the result of the loop (for any timeout
behavior) has no edge whose target is the initial class `0`. -/
theorem dpainfLoop_no_eps_target (cons : RC → Bool) (thr : Nat) (alpha : List Sym)
    (tf : Nat → Bool) :
    ∀ (fuel iter : Nat) (cong : RC) (queue : List (Nat × Sym)) (out : RC),
      1 ≤ cong.size →
      (∀ e ∈ cong.edges, e.2.2 ≠ 0) →
      (dpainfLoop cons thr alpha false tf fuel iter cong queue).congOf = some out →
      ∀ e ∈ out.edges, e.2.2 ≠ 0 := by
  intro fuel
  induction fuel with
  | zero =>
    intro iter cong queue out _ _ h
    simp [dpainfLoop, DpaRes.congOf] at h
  | succ n ih =>
    intro iter cong queue out hsz hnoeps h
    rcases queue with - | ⟨⟨q, a⟩, rest⟩
    · simp only [dpainfLoop, DpaRes.congOf, Option.some.injEq] at h
      exact h ▸ hnoeps
    · simp only [dpainfLoop] at h
      split at h
      · simp only [DpaRes.congOf, Option.some.injEq] at h
        exact h ▸ hnoeps
      · split at h
        · simp [DpaRes.congOf] at h
        · split at h
          · next c' heq =>
            obtain ⟨t, -, hc', -, hall⟩ := firstConsistent_some heq
            have ht0 : t ≠ 0 := by
              rcases hall with habs | h0
              · exact absurd habs (by simp)
              · exact h0
            subst hc'
            refine ih (iter + 1) (cong.addEdge q a t) rest out (by simpa using hsz) ?_ h
            intro e he
            rcases mem_addEdge.mp he with ⟨hold, -⟩ | rfl
            · exact hnoeps e hold
            · exact ht0
          · split at h
            · simp only [DpaRes.congOf, Option.some.injEq] at h
              exact h ▸ hnoeps
            · refine ih (iter + 1) ((cong.addState).addEdge q a cong.size) _ out
                (by simp) ?_ h
              intro e he
              rcases mem_addEdge.mp he with ⟨hold, -⟩ | rfl
              · exact hnoeps e (by simpa using hold)
              · exact Nat.one_le_iff_ne_zero.mp hsz

/-- C10: when `dpainf` is called with `allow_transitions_into_epsilon =
false`, the right congruence it returns — on success as well as inside a
Threshold or Timeout error — contains no edge whose target is the initial
class ε (index 0). -/
theorem dpainf_no_edges_into_epsilon (chk : CCheck) (adds : List (RC → Bool))
    (tf : Nat → Bool) (fuel : Nat) (out : RC)
    (h : (dpainf chk adds false tf fuel).congOf = some out) :
    ∀ e ∈ out.edges, e.2.2 ≠ 0 :=
  dpainfLoop_no_eps_target (fun c => chk.consistent c && adds.all (fun f => f c))
    chk.threshold chk.alphabet tf fuel 0 rcEpsilon
    (chk.alphabet.map (fun s => (0, s))) out (Nat.le_refl 1)
    (by intro e he; simp [rcEpsilon] at he) h

/-- The congruence computed by the concrete run used as witness for C10. -/
def epsOut : RC := { size := 2, initial := 0, edges := [(0, 0, 1), (1, 0, 1)] }

/-- Witness for C10 at a concrete input. -/
theorem dpainf_no_edges_into_epsilon_witness :
    (dpainf chkTriv [] false neverTimeout 10).congOf = some epsOut ∧
      ∀ e ∈ epsOut.edges, e.2.2 ≠ 0 :=
  ⟨by decide, dpainf_no_edges_into_epsilon chkTriv [] neverTimeout 10 epsOut (by decide)⟩

/-! ## Congruence of finite words in a pointed automaton (C9) -/

/-- `Automaton::congruent` (deterministic.rs): evaluates
`reached_state_index(u).unwrap() == reached_state_index(v).unwrap()`. Each
`unwrap` panics — modelled by `none` — when the corresponding run is
undefined at some step. -/
def RC.congruent (c : RC) (u v : List Sym) : Option Bool :=
  match c.run u, c.run v with
  | some x, some y => some (decide (x = y))
  | _, _ => none

/-- C9: `congruent(u, v)` panics exactly when the run on `u` or on `v` from
the initial state is undefined at some step; when both runs are defined it
returns true if and only if they reach the same state index. -/
theorem congruent_spec (c : RC) (u v : List Sym) :
    (c.congruent u v = none ↔ (c.run u = none ∨ c.run v = none)) ∧
    (∀ x y, c.run u = some x → c.run v = some y →
      c.congruent u v = some (decide (x = y))) := by
  unfold RC.congruent
  rcases hu : c.run u with - | x₀ <;> rcases hv : c.run v with - | y₀ <;> simp [hu, hv]

/-! ## The HOA input boundary (C8) -/

/-- The abort marker `--ABORT--` as a character list. -/
def abortMarker : List Char := "--ABORT--".toList

/-- The error type of the HOA parser (`FromHoaError` of the hoars crate):
abort streams, lexer errors and parser errors are distinguished
constructors; the payload types of the error reports are abstract. -/
inductive FromHoaError (E₁ E₂ : Type) where
  | abort
  | lexerError (e : E₁)
  | parserError (e : E₂)

/-- `from_hoa` (input.rs): return the distinguished `Abort` error when the
input contains the substring `--ABORT--`; otherwise tokenize, reporting
failures as `LexerError`, then parse, reporting failures as `ParserError`.
The lexer and the parser themselves are abstracted as parameters. -/
def fromHoa {E₁ E₂ Toks Rep : Type} (lex : List Char → Except E₁ Toks)
    (parse : Toks → Except E₂ Rep) (s : List Char) :
    Except (FromHoaError E₁ E₂) Rep :=
  if abortMarker.IsInfix s then .error .abort
  else
    match lex s with
    | .error e => .error (.lexerError e)
    | .ok toks =>
      match parse toks with
      | .error e => .error (.parserError e)
      | .ok r => .ok r

/-- C8: `from_hoa(s)` returns the distinguished error `Abort` exactly when
`s` contains the substring `--ABORT--`; all other failures are lexer or
parser errors, and the three error kinds are pairwise distinct. -/
theorem fromHoa_abort_iff (E₁ E₂ Toks Rep : Type) (lex : List Char → Except E₁ Toks)
    (parse : Toks → Except E₂ Rep) (s : List Char) :
    (fromHoa lex parse s = .error .abort ↔ abortMarker.IsInfix s) ∧
    (∀ e : E₁, (FromHoaError.abort : FromHoaError E₁ E₂) ≠ .lexerError e) ∧
    (∀ e : E₂, (FromHoaError.abort : FromHoaError E₁ E₂) ≠ .parserError e) ∧
    (∀ (e₁ : E₁) (e₂ : E₂),
      (FromHoaError.lexerError e₁ : FromHoaError E₁ E₂) ≠ .parserError e₂) := by
  refine ⟨?_, ?_, ?_, ?_⟩
  case refine_2 => intro e h; cases h
  case refine_3 => intro e h; cases h
  case refine_4 => intro e₁ e₂ h; cases h
  unfold fromHoa
  split
  · next hinf => simp [hinf]
  · next hinf =>
    constructor
    · intro habs
      exfalso
      rcases hlex : lex s with e | toks
      · simp [hlex] at habs
      · rcases hp : parse toks with e | r
        · simp [hlex, hp] at habs
        · simp [hlex, hp] at habs
    · intro habs
      exact absurd habs hinf

/-! ## The shrink operations of a DTS (C6) -/

/-- An edge tuple `(source, expression, color, target)` of a DTS. -/
abbrev ETuple := Nat × Sym × Int × Nat

/-- A deterministic transition system with state colors and edge colors, as
stored by the arena representation (spec §9): states are `(index, color)`
pairs, edges are `(source, expression, color, target)` tuples. -/
structure DTSm where
  states : List (Nat × Nat)
  edges : List ETuple
deriving DecidableEq

/-- Does the transition system contain the state index `q`? -/
def DTSm.hasState (m : DTSm) (q : Nat) : Bool :=
  m.states.any (fun s => decide (s.1 = q))

/-- Modelled from the spec: `remove_state` (spec §4.1, `Shrinkable` trait
docs; the implementation for the concrete DTS is not among the provided
sources) removes `q` and all edges incident on `q`, returning the removed
color, and fails softly (returns `None`) when `q` is absent. -/
def DTSm.removeState (m : DTSm) (q : Nat) : Option (Nat × DTSm) :=
  match m.states.find? (fun s => decide (s.1 = q)) with
  | none => none
  | some s =>
    some (s.2,
      { states := m.states.filter (fun p => !decide (p.1 = q)),
        edges := m.edges.filter (fun e => !decide (e.1 = q ∨ e.2.2.2 = q)) })

/-- Modelled from the spec: `remove_edges_from_matching` removes all edges
leaving `q` whose expression matches `a` and returns the removed tuples, or
`None` if `q` is absent. -/
def DTSm.removeEdgesFromMatching (m : DTSm) (q : Nat) (a : Sym) :
    Option (List ETuple × DTSm) :=
  if m.hasState q then
    some (m.edges.filter (fun e => decide (e.1 = q ∧ e.2.1 = a)),
      { m with edges := m.edges.filter (fun e => !decide (e.1 = q ∧ e.2.1 = a)) })
  else none

/-- Modelled from the spec: `remove_edges_between_matching` removes all
edges from `q` to `t` whose expression matches `a`; `None` if either state
is absent. -/
def DTSm.removeEdgesBetweenMatching (m : DTSm) (q t : Nat) (a : Sym) :
    Option (List ETuple × DTSm) :=
  if m.hasState q && m.hasState t then
    some (m.edges.filter (fun e => decide (e.1 = q ∧ e.2.1 = a ∧ e.2.2.2 = t)),
      { m with edges := m.edges.filter (fun e => !decide (e.1 = q ∧ e.2.1 = a ∧ e.2.2.2 = t)) })
  else none

/-- Modelled from the spec: `remove_edges_between` removes all edges from
`q` to `t`; `None` if either state is absent. -/
def DTSm.removeEdgesBetween (m : DTSm) (q t : Nat) : Option (List ETuple × DTSm) :=
  if m.hasState q && m.hasState t then
    some (m.edges.filter (fun e => decide (e.1 = q ∧ e.2.2.2 = t)),
      { m with edges := m.edges.filter (fun e => !decide (e.1 = q ∧ e.2.2.2 = t)) })
  else none

/-- Modelled from the spec: `remove_edges_from` removes all edges leaving
`q`; `None` if `q` is absent. -/
def DTSm.removeEdgesFrom (m : DTSm) (q : Nat) : Option (List ETuple × DTSm) :=
  if m.hasState q then
    some (m.edges.filter (fun e => decide (e.1 = q)),
      { m with edges := m.edges.filter (fun e => !decide (e.1 = q)) })
  else none

/-- Modelled from the spec: `remove_edges_to` removes all edges into `t`;
`None` if `t` is absent. -/
def DTSm.removeEdgesTo (m : DTSm) (t : Nat) : Option (List ETuple × DTSm) :=
  if m.hasState t then
    some (m.edges.filter (fun e => decide (e.2.2.2 = t)),
      { m with edges := m.edges.filter (fun e => !decide (e.2.2.2 = t)) })
  else none

/-- One-step successors of a state, following the stored edges. -/
def DTSm.succsOf (m : DTSm) (q : Nat) : List Nat :=
  (m.edges.filter (fun e => decide (e.1 = q))).map (fun e => e.2.2.2)

/-- `Shrinkable::trim_from` (shrinkable.rs, lines 195–208): it first runs
`assert!(self.contains_state_index(source))` — the panic is modelled by
returning `none` — and then removes every state not reachable from `source`
(each removal purging the incident edges), returning the removed
`(id, color)` pairs. -/
def DTSm.trimFrom (m : DTSm) (source : Nat) : Option (List (Nat × Nat) × DTSm) :=
  if m.hasState source = false then none
  else
    let reach := closure m.succsOf
      ((source :: m.edges.map (fun e => e.2.2.2)).dedup.length) [source]
    let removed := m.states.filter (fun s => decide (s.1 ∉ reach))
    let removedIdx := removed.map (fun s => s.1)
    some (removed,
      { states := m.states.filter (fun s => decide (s.1 ∈ reach)),
        edges := m.edges.filter
          (fun e => !decide (e.1 ∈ removedIdx ∨ e.2.2.2 ∈ removedIdx)) })

/-- C6 (amended): each `remove_*` shrink operation fails softly, returning
the sentinel `None` exactly when a named endpoint state is absent; but
`trim_from` asserts that the source state exists and panics (modelled by
`none`) exactly when the source is absent, rather than completing without
panicking. -/
theorem shrink_ops_on_absent_state (m : DTSm) (q t : Nat) (a : Sym) :
    (m.removeState q = none ↔ m.hasState q = false) ∧
    (m.removeEdgesFromMatching q a = none ↔ m.hasState q = false) ∧
    (m.removeEdgesBetweenMatching q t a = none ↔
      (m.hasState q = false ∨ m.hasState t = false)) ∧
    (m.removeEdgesBetween q t = none ↔
      (m.hasState q = false ∨ m.hasState t = false)) ∧
    (m.removeEdgesFrom q = none ↔ m.hasState q = false) ∧
    (m.removeEdgesTo t = none ↔ m.hasState t = false) ∧
    (m.trimFrom q = none ↔ m.hasState q = false) := by
  refine ⟨?_, ?_, ?_, ?_, ?_, ?_, ?_⟩
  · unfold DTSm.removeState
    rcases hf : m.states.find? (fun s => decide (s.1 = q)) with - | s
    · rw [hf]
      have hfalse : m.hasState q = false := by
        unfold DTSm.hasState
        rw [List.any_eq_false]
        intro x hx
        simpa using List.find?_eq_none.mp hf x hx
      simp [hfalse]
    · rw [hf]
      have htrue : m.hasState q = true := by
        have hmem := List.mem_of_find?_eq_some hf
        have hpred := List.find?_some hf
        unfold DTSm.hasState
        rw [List.any_eq_true]
        exact ⟨s, hmem, hpred⟩
      simp [htrue]
  · unfold DTSm.removeEdgesFromMatching
    rcases h : m.hasState q with - | - <;> simp [h]
  · unfold DTSm.removeEdgesBetweenMatching
    rcases h1 : m.hasState q with - | - <;> rcases h2 : m.hasState t with - | - <;>
      simp [h1, h2]
  · unfold DTSm.removeEdgesBetween
    rcases h1 : m.hasState q with - | - <;> rcases h2 : m.hasState t with - | - <;>
      simp [h1, h2]
  · unfold DTSm.removeEdgesFrom
    rcases h : m.hasState q with - | - <;> simp [h]
  · unfold DTSm.removeEdgesTo
    rcases h : m.hasState t with - | - <;> simp [h]
  · unfold DTSm.trimFrom
    rcases h : m.hasState q with - | - <;> simp [h]

/-- The transition system with the single state `0` used by the C6
counterexample. -/
def cexDts : DTSm := { states := [(0, 0)], edges := [] }

/-- C6 counterexample: `trim_from` does not fail softly on an absent state
index — its `assert!(self.contains_state_index(source))` panics (modelled by
`none`) on the absent index `5`. -/
theorem trimFrom_panics_on_absent_state :
    cexDts.trimFrom 5 = none ∧ cexDts.hasState 5 = false := by
  exact ⟨by decide, by decide⟩

/-! ## Deterministic parity automata and the prefix partition (C4)

A `DPAm` models a complete DPA: a total transition function returning the
target state and the edge priority. Acceptance of an ultimately periodic
word follows spec §4.8 (the run machinery is not among the provided
sources): run the spoke, then run the cycle repeatedly until a state
reoccurs, and aggregate the least edge color on the looping part; a word is
accepted iff that color is even (min-even semantics). -/

structure DPAm where
  size : Nat
  initial : Nat
  alphabet : List Sym
  trans : Nat → Sym → Nat × Int

/-- Target state of a transition. -/
def DPAm.target (D : DPAm) (q : Nat) (a : Sym) : Nat := (D.trans q a).1

/-- Priority of a transition. -/
def DPAm.color (D : DPAm) (q : Nat) (a : Sym) : Int := (D.trans q a).2

/-- Running a finite word (total, the DPA is complete). -/
def DPAm.runD (D : DPAm) (q : Nat) : List Sym → Nat
  | [] => q
  | a :: w => D.runD (D.target q a) w

/-- The priorities seen along the run of a finite word. -/
def DPAm.colorsOnRun (D : DPAm) (q : Nat) : List Sym → List Int
  | [] => []
  | a :: w => D.color q a :: D.colorsOnRun (D.target q a) w

/-- Modelled from the spec (§4.8): run the cycle `v` block by block from the
current state until a state reoccurs; returns the list of looping states
(the block-states from the first occurrence of the repeated state on). -/
def DPAm.lassoSplit (D : DPAm) (v : List Sym) : Nat → List Nat → Nat → Option (List Nat)
  | 0, _, _ => none
  | fuel + 1, vis, cur =>
    match vis.findIdx? (fun x => decide (x = cur)) with
    | some i => some (vis.drop i)
    | none => D.lassoSplit v fuel (vis ++ [cur]) (D.runD cur v)

/-- Modelled from the spec (§4.8): min-even acceptance of the ultimately
periodic word `u·vᵂ` from the state `s`. -/
def DPAm.acceptsFrom (D : DPAm) (s : Nat) (u v : List Sym) : Option Bool :=
  match D.lassoSplit v (D.size + 1) [] (D.runD s u) with
  | none => none
  | some loop =>
    ((loop.flatMap (fun p => D.colorsOnRun p v)).min?).map (fun c => decide (c % 2 = 0))

/-- Language equivalence of two states of a DPA: the automaton started in
either state accepts the same ultimately periodic ω-words over its
alphabet. -/
def LangEquiv (D : DPAm) (p q : Nat) : Prop :=
  ∀ u v : List Sym, v ≠ [] → (∀ a ∈ u, a ∈ D.alphabet) → (∀ a ∈ v, a ∈ D.alphabet) →
    D.acceptsFrom p u v = D.acceptsFrom q u v

theorem langEquiv_equivalence (D : DPAm) : Equivalence (LangEquiv D) := by
  refine ⟨fun p u v h1 h2 h3 => rfl, ?_, ?_⟩
  · intro p q h u v h1 h2 h3
    exact (h u v h1 h2 h3).symm
  · intro p q r hpq hqr u v h1 h2 h3
    exact (hpq u v h1 h2 h3).trans (hqr u v h1 h2 h3)

/-- One-step successors of a DPA state, one per alphabet symbol. -/
def DPAm.succsD (D : DPAm) (q : Nat) : List Nat := D.alphabet.map (fun a => D.target q a)

/-- Modelled from the spec: the reachable states of a DPA in breadth-first
discovery order, the initial state first. -/
def DPAm.reachableStates (D : DPAm) : List Nat := closure D.succsD D.size [D.initial]

theorem runD_append (D : DPAm) (s : Nat) (w w' : List Sym) :
    D.runD s (w ++ w') = D.runD (D.runD s w) w' := by
  induction w generalizing s with
  | nil => rfl
  | cons a w ih => simp only [List.cons_append, DPAm.runD]; exact ih _

theorem reachD_iff_word (D : DPAm) (s x : Nat) :
    Reach D.succsD s x ↔ ∃ w, (∀ a ∈ w, a ∈ D.alphabet) ∧ D.runD s w = x := by
  constructor
  · intro hr
    induction hr with
    | refl => exact ⟨[], by simp, rfl⟩
    | tail _ hstep ih =>
      obtain ⟨w, hwa, hw⟩ := ih
      obtain ⟨a, ha, hta⟩ := List.mem_map.mp hstep
      refine ⟨w ++ [a], ?_, ?_⟩
      · intro b hb
        rcases List.mem_append.mp hb with hb | hb
        · exact hwa b hb
        · simpa using (List.mem_singleton.mp hb) ▸ ha
      · rw [runD_append, hw]
        simpa [DPAm.runD] using hta
  · rintro ⟨w, hwa, hw⟩
    induction w generalizing s with
    | nil => exact hw ▸ Relation.ReflTransGen.refl
    | cons a w ih =>
      refine Relation.ReflTransGen.head ?_ (ih _ (fun b hb => hwa b (List.mem_cons_of_mem _ hb)) hw)
      exact List.mem_map.mpr ⟨a, hwa a (List.mem_cons_self _ _), rfl⟩

theorem mem_reachableStates_iff (D : DPAm) (hinit : D.initial < D.size)
    (hwf : ∀ q a, q < D.size → a ∈ D.alphabet → D.target q a < D.size) (x : Nat) :
    x ∈ D.reachableStates ↔
      ∃ w, (∀ a ∈ w, a ∈ D.alphabet) ∧ D.runD D.initial w = x := by
  rw [← reachD_iff_word]
  refine mem_closure_iff D.succsD (List.range D.size) ?_ D.initial
    (List.mem_range.mpr hinit) D.size ?_ x
  · intro y hy z hz
    obtain ⟨a, ha, rfl⟩ := List.mem_map.mp hz
    exact List.mem_range.mpr (hwf y a (List.mem_range.mp hy) ha)
  · rw [List.Nodup.dedup (List.nodup_range _)]
    simp

/-- Ordered insertion into a sorted duplicate-free cell, modelling
`BTreeSet::insert`. -/
def insertSorted (x : Nat) : List Nat → List Nat
  | [] => [x]
  | y :: ys => if x < y then x :: y :: ys else if x = y then y :: ys else y :: insertSorted x ys

theorem mem_insertSorted {x z : Nat} : ∀ {l : List Nat},
    z ∈ insertSorted x l ↔ z = x ∨ z ∈ l := by
  intro l
  induction l with
  | nil => simp [insertSorted]
  | cons y ys ih =>
    simp only [insertSorted]
    split
    · simp [or_comm, or_left_comm]
    · split
      · next hxy =>
        subst hxy
        exact ⟨Or.inr, fun h => h.elim (fun hz => hz ▸ List.mem_cons_self _ _) id⟩
      · simp only [List.mem_cons, ih]
        tauto

/-- One step of `prefix_partition` (parity.rs, lines 243–267): find the
first cell whose representative (the least element, `BTreeSet::first`) is
equivalent to `q` and insert `q` there; if none accepts, append the new
singleton cell `{q}`. -/
def placeState (eqv : Nat → Nat → Bool) : List (List Nat) → Nat → List (List Nat)
  | [], q => [[q]]
  | c :: cs, q =>
    if eqv (c.headD 0) q then insertSorted q c :: cs else c :: placeState eqv cs q

/-- The outer loop of `prefix_partition`: fold the reachable states through
`placeState`. -/
def buildPartition (eqv : Nat → Nat → Bool) : List Nat → List (List Nat) → List (List Nat)
  | [], part => part
  | q :: qs, part => buildPartition eqv qs (placeState eqv part q)

/-- `prefix_partition` (parity.rs): group the reachable states greedily by
the language-equivalence test `eqv`. The first processed state is the
initial state, which opens the first cell, matching the initialization
`partition = [{initial}]` of the source. -/
def DPAm.prefixPartition (D : DPAm) (eqv : Nat → Nat → Bool) : List (List Nat) :=
  buildPartition eqv D.reachableStates []

theorem mem_placeState (eqv : Nat → Nat → Bool) (x z : Nat) : ∀ (part : List (List Nat)),
    (∃ cell ∈ placeState eqv part x, z ∈ cell) ↔ z = x ∨ ∃ cell ∈ part, z ∈ cell := by
  intro part
  induction part with
  | nil => simp [placeState]
  | cons c cs ih =>
    simp only [placeState]
    split
    · simp only [List.mem_cons]
      constructor
      · rintro ⟨cell, hcell | hcell, hz⟩
        · rcases mem_insertSorted.mp (hcell ▸ hz) with rfl | hz'
          · exact Or.inl rfl
          · exact Or.inr ⟨c, Or.inl rfl, hz'⟩
        · exact Or.inr ⟨cell, Or.inr hcell, hz⟩
      · rintro (rfl | ⟨cell, hcell | hcell, hz⟩)
        · exact ⟨insertSorted z c, Or.inl rfl, mem_insertSorted.mpr (Or.inl rfl)⟩
        · exact ⟨insertSorted x c, Or.inl rfl, mem_insertSorted.mpr (Or.inr (hcell ▸ hz))⟩
        · exact ⟨cell, Or.inr hcell, hz⟩
    · simp only [List.mem_cons]
      constructor
      · rintro ⟨cell, hcell | hcell, hz⟩
        · exact Or.inr ⟨cell, Or.inl hcell, hz⟩
        · rcases (ih).mp ⟨cell, hcell, hz⟩ with rfl | ⟨cell', hcell', hz'⟩
          · exact Or.inl rfl
          · exact Or.inr ⟨cell', Or.inr hcell', hz'⟩
      · rintro (rfl | ⟨cell, hcell | hcell, hz⟩)
        · obtain ⟨cell, hcell, hz⟩ := (ih).mpr (Or.inl rfl)
          exact ⟨cell, Or.inr hcell, hz⟩
        · exact ⟨cell, Or.inl hcell, hz⟩
        · obtain ⟨cell', hcell', hz'⟩ := (ih).mpr (Or.inr ⟨cell, hcell, hz⟩)
          exact ⟨cell', Or.inr hcell', hz'⟩

theorem mem_buildPartition (eqv : Nat → Nat → Bool) (z : Nat) :
    ∀ (qs : List Nat) (part : List (List Nat)),
    (∃ cell ∈ buildPartition eqv qs part, z ∈ cell) ↔
      z ∈ qs ∨ ∃ cell ∈ part, z ∈ cell := by
  intro qs
  induction qs with
  | nil => simp [buildPartition]
  | cons q qs ih =>
    intro part
    simp only [buildPartition, ih, mem_placeState, List.mem_cons]
    tauto

/-- The invariant of the greedy grouping: cells are nonempty, their members
belong to `good`, members of one cell are mutually related by `R`, and
members of distinct cells are unrelated. -/
def PartGood (R : Nat → Nat → Prop) (good : List Nat) (part : List (List Nat)) : Prop :=
  (∀ cell ∈ part, cell ≠ []) ∧
  (∀ cell ∈ part, ∀ p ∈ cell, p ∈ good) ∧
  (∀ cell ∈ part, ∀ p ∈ cell, ∀ q ∈ cell, R p q) ∧
  part.Pairwise (fun c₁ c₂ => ∀ p ∈ c₁, ∀ q ∈ c₂, ¬ R p q)

theorem headD_mem {c : List Nat} (h : c ≠ []) : c.headD 0 ∈ c := by
  cases c with
  | nil => exact absurd rfl h
  | cons a l => exact List.mem_cons_self _ _

theorem placeState_partGood {R : Nat → Nat → Prop} {good : List Nat}
    {eqv : Nat → Nat → Bool} (hR : Equivalence R)
    (heqv : ∀ p q, p ∈ good → q ∈ good → (eqv p q = true ↔ R p q))
    {x : Nat} (hx : x ∈ good) :
    ∀ {part : List (List Nat)}, PartGood R good part →
      PartGood R good (placeState eqv part x) := by
  intro part
  induction part with
  | nil =>
    rintro -
    refine ⟨?_, ?_, ?_, ?_⟩
    · intro cell hcell
      simp only [placeState, List.mem_singleton] at hcell
      simp [hcell]
    · intro cell hcell p hp
      simp only [placeState, List.mem_singleton] at hcell
      subst hcell
      simpa using (List.mem_singleton.mp hp) ▸ hx
    · intro cell hcell p hp q hq
      simp only [placeState, List.mem_singleton] at hcell
      subst hcell
      rw [List.mem_singleton.mp hp, List.mem_singleton.mp hq]
      exact hR.refl x
    · simp [placeState]
  | cons c cs ih =>
    rintro ⟨hne, hgood, hint, hpair⟩
    have hcne : c ≠ [] := hne c (List.mem_cons_self _ _)
    have hrep : c.headD 0 ∈ c := headD_mem hcne
    have hrepgood : c.headD 0 ∈ good := hgood c (List.mem_cons_self _ _) _ hrep
    obtain ⟨hpairhead, hpairtail⟩ := List.pairwise_cons.mp hpair
    simp only [placeState]
    split
    · next heq =>
      have hRx : R (c.headD 0) x := (heqv _ x hrepgood hx).mp heq
      have hcint : ∀ p ∈ c, ∀ q ∈ c, R p q := hint c (List.mem_cons_self _ _)
      have hmemins : ∀ z ∈ insertSorted x c, z = x ∨ z ∈ c := fun z hz => mem_insertSorted.mp hz
      have hRall : ∀ p, p ∈ insertSorted x c → ∀ q, q ∈ insertSorted x c → R p q := by
        intro p hp q hq
        have hRp : R (c.headD 0) p := by
          rcases hmemins p hp with rfl | hp'
          · exact hRx
          · exact hcint _ hrep _ hp'
        have hRq : R (c.headD 0) q := by
          rcases hmemins q hq with rfl | hq'
          · exact hRx
          · exact hcint _ hrep _ hq'
        exact hR.trans (hR.symm hRp) hRq
      refine ⟨?_, ?_, ?_, ?_⟩
      · intro cell hcell
        rcases List.mem_cons.mp hcell with rfl | hcell'
        · exact List.ne_nil_of_mem (mem_insertSorted.mpr (Or.inl rfl))
        · exact hne cell (List.mem_cons_of_mem _ hcell')
      · intro cell hcell p hp
        rcases List.mem_cons.mp hcell with rfl | hcell'
        · rcases hmemins p hp with rfl | hp'
          · exact hx
          · exact hgood c (List.mem_cons_self _ _) _ hp'
        · exact hgood cell (List.mem_cons_of_mem _ hcell') _ hp
      · intro cell hcell p hp q hq
        rcases List.mem_cons.mp hcell with rfl | hcell'
        · exact hRall p hp q hq
        · exact hint cell (List.mem_cons_of_mem _ hcell') p hp q hq
      · rw [List.pairwise_cons]
        refine ⟨?_, hpairtail⟩
        intro c₂ hc₂ p hp q hq hRpq
        have hRrep_p : R (c.headD 0) p := by
          rcases hmemins p hp with rfl | hp'
          · exact hRx
          · exact hcint _ hrep _ hp'
        exact hpairhead c₂ hc₂ _ hrep q hq (hR.trans hRrep_p hRpq)
    · next heq =>
      have hnRx : ¬ R (c.headD 0) x := by
        intro hr
        rw [(heqv _ x hrepgood hx).mpr hr] at heq
        exact heq rfl
      have hsub : PartGood R good cs := by
        refine ⟨fun cell hcell => hne cell (List.mem_cons_of_mem _ hcell),
          fun cell hcell => hgood cell (List.mem_cons_of_mem _ hcell),
          fun cell hcell => hint cell (List.mem_cons_of_mem _ hcell), hpairtail⟩
      obtain ⟨hne', hgood', hint', hpair'⟩ := ih hsub
      refine ⟨?_, ?_, ?_, ?_⟩
      · intro cell hcell
        rcases List.mem_cons.mp hcell with rfl | hcell'
        · exact hcne
        · exact hne' cell hcell'
      · intro cell hcell p hp
        rcases List.mem_cons.mp hcell with rfl | hcell'
        · exact hgood cell (List.mem_cons_self _ _) _ hp
        · exact hgood' cell hcell' _ hp
      · intro cell hcell p hp q hq
        rcases List.mem_cons.mp hcell with rfl | hcell'
        · exact hint cell (List.mem_cons_self _ _) p hp q hq
        · exact hint' cell hcell' p hp q hq
      · rw [List.pairwise_cons]
        refine ⟨?_, hpair'⟩
        intro c₂ hc₂ p hp q hq hRpq
        have hq' : q = x ∨ ∃ cell ∈ cs, q ∈ cell :=
          (mem_placeState eqv x q cs).mp ⟨c₂, hc₂, hq⟩
        rcases hq' with rfl | ⟨cell', hcell', hq''⟩
        · have hRrp : R (c.headD 0) p :=
            hint c (List.mem_cons_self _ _) _ hrep _ hp
          exact hnRx (hR.trans hRrp hRpq)
        · exact hpairhead cell' hcell' p hp q hq'' hRpq

theorem buildPartition_partGood {R : Nat → Nat → Prop} {good : List Nat}
    {eqv : Nat → Nat → Bool} (hR : Equivalence R)
    (heqv : ∀ p q, p ∈ good → q ∈ good → (eqv p q = true ↔ R p q)) :
    ∀ (qs : List Nat) (part : List (List Nat)), (∀ x ∈ qs, x ∈ good) →
      PartGood R good part → PartGood R good (buildPartition eqv qs part) := by
  intro qs
  induction qs with
  | nil => intro part _ h; exact h
  | cons q qs ih =>
    intro part hqs h
    exact ih _ (fun x hx => hqs x (List.mem_cons_of_mem _ hx))
      (placeState_partGood hR heqv (hqs q (List.mem_cons_self _ _)) h)

/-- C4: `prefix_partition` partitions the reachable states of a complete
well-formed DPA into cells that are internally language-equivalent and
pairwise language-inequivalent, provided the boolean equivalence test used
by the grouping decides language equivalence of reachable states (in the
source the test is `language_equivalent`, the witness-based product-SCC
decision procedure). -/
theorem prefixPartition_correct (D : DPAm) (eqv : Nat → Nat → Bool)
    (hinit : D.initial < D.size)
    (hwf : ∀ q a, q < D.size → a ∈ D.alphabet → D.target q a < D.size)
    (heqv : ∀ p q, p ∈ D.reachableStates → q ∈ D.reachableStates →
      (eqv p q = true ↔ LangEquiv D p q)) :
    (∀ z, (∃ cell ∈ D.prefixPartition eqv, z ∈ cell) ↔
      ∃ w, (∀ a ∈ w, a ∈ D.alphabet) ∧ D.runD D.initial w = z) ∧
    (∀ cell ∈ D.prefixPartition eqv, ∀ p ∈ cell, ∀ q ∈ cell, LangEquiv D p q) ∧
    (∀ i j (hi : i < (D.prefixPartition eqv).length)
        (hj : j < (D.prefixPartition eqv).length), i < j →
      ∀ p ∈ (D.prefixPartition eqv)[i], ∀ q ∈ (D.prefixPartition eqv)[j],
        ¬ LangEquiv D p q) := by
  have hgoodpart : PartGood (LangEquiv D) D.reachableStates (D.prefixPartition eqv) := by
    refine buildPartition_partGood (langEquiv_equivalence D) heqv
      D.reachableStates [] (fun x hx => hx) ?_
    exact ⟨by simp, by simp, by simp, List.Pairwise.nil⟩
  obtain ⟨-, -, hint, hpair⟩ := hgoodpart
  refine ⟨?_, hint, ?_⟩
  · intro z
    rw [← mem_reachableStates_iff D hinit hwf z]
    unfold DPAm.prefixPartition
    rw [mem_buildPartition]
    simp
  · intro i j hi hj hij p hp q hq
    exact (List.pairwise_iff_getElem.mp hpair) i j hi hj hij p hp q hq

/-- The one-state DPA used by the C4 witness: one state, alphabet `{0}`,
all transitions are self-loops with priority `0`. -/
def dpaOne : DPAm := { size := 1, initial := 0, alphabet := [0], trans := fun _ _ => (0, 0) }

/-- The trivially true equivalence test used by the C4 witness. -/
def eqvTrue : Nat → Nat → Bool := fun _ _ => true

/-- Witness for C4 at a concrete input: the prefix partition of the
one-state DPA, with the equivalence test that accepts everything (which is
correct on its single reachable state). -/
theorem prefixPartition_correct_witness :
    (∀ z, (∃ cell ∈ dpaOne.prefixPartition eqvTrue, z ∈ cell) ↔
      ∃ w, (∀ a ∈ w, a ∈ dpaOne.alphabet) ∧ dpaOne.runD dpaOne.initial w = z) ∧
    (∀ cell ∈ dpaOne.prefixPartition eqvTrue, ∀ p ∈ cell, ∀ q ∈ cell, LangEquiv dpaOne p q) ∧
    (∀ i j (hi : i < (dpaOne.prefixPartition eqvTrue).length)
        (hj : j < (dpaOne.prefixPartition eqvTrue).length), i < j →
      ∀ p ∈ (dpaOne.prefixPartition eqvTrue)[i], ∀ q ∈ (dpaOne.prefixPartition eqvTrue)[j],
        ¬ LangEquiv dpaOne p q) := by
  refine prefixPartition_correct dpaOne eqvTrue (by decide)
    (fun q a _ _ => Nat.zero_lt_one) ?_
  intro p q hp hq
  have hrs : dpaOne.reachableStates = [0] := by decide
  rw [hrs] at hp hq
  have hp0 : p = 0 := List.mem_singleton.mp hp
  have hq0 : q = 0 := List.mem_singleton.mp hq
  subst hp0 hq0
  exact ⟨fun _ => (langEquiv_equivalence dpaOne).refl 0, fun _ => rfl⟩

/-! ## Transition systems with traced runs (towards C5)

A `TS` is the bare transition structure an `Scc` view sits on: a list of
`(source, symbol, target)` transitions. `runTrace` runs a finite word and
additionally records the transitions taken, which is what the maximal-loop
property of C5 speaks about. -/

structure TS where
  edges : List (Nat × Sym × Nat)

/-- The deterministic successor: the unique transition of a deterministic
transition system on `(x, a)` (looked up as the first matching stored
edge). -/
def stepTS (ts : TS) (x : Nat) (a : Sym) : Option Nat :=
  (ts.edges.find? (fun e => decide (e.1 = x ∧ e.2.1 = a))).map (fun e => e.2.2)

/-- Running a finite word while recording the list of transitions taken;
`none` if the run dies. -/
def runTrace (ts : TS) (x : Nat) : List Sym → Option (List (Nat × Sym × Nat) × Nat)
  | [] => some ([], x)
  | a :: w =>
    (stepTS ts x a).bind (fun t =>
      (runTrace ts t w).map (fun pr => ((x, a, t) :: pr.1, pr.2)))

/-- The state reached by running a finite word. -/
def runTS (ts : TS) (x : Nat) (w : List Sym) : Option Nat :=
  (runTrace ts x w).map (fun pr => pr.2)

/-- Determinism of the stored transition structure: at most one target per
`(source, symbol)` pair. -/
def TSDet (ts : TS) : Prop :=
  ∀ p a t t', (p, a, t) ∈ ts.edges → (p, a, t') ∈ ts.edges → t = t'

theorem runTrace_nil (ts : TS) (x : Nat) : runTrace ts x [] = some ([], x) := rfl

theorem runTrace_cons (ts : TS) (x : Nat) (a : Sym) (w : List Sym) :
    runTrace ts x (a :: w) =
      (stepTS ts x a).bind (fun t =>
        (runTrace ts t w).map (fun pr => ((x, a, t) :: pr.1, pr.2))) := rfl

theorem stepTS_mem {ts : TS} {x : Nat} {a : Sym} {t : Nat}
    (h : stepTS ts x a = some t) : (x, a, t) ∈ ts.edges := by
  unfold stepTS at h
  obtain ⟨e, he, ht⟩ := Option.map_eq_some'.mp h
  have hm := List.mem_of_find?_eq_some he
  have hp := List.find?_some he
  simp only [decide_eq_true_eq] at hp
  obtain ⟨e1, e2, e3⟩ := e
  obtain ⟨rfl, rfl⟩ := hp
  exact ht ▸ hm

theorem stepTS_eq_some_of_mem {ts : TS} (hdet : TSDet ts) {x : Nat} {a : Sym} {t : Nat}
    (h : (x, a, t) ∈ ts.edges) : stepTS ts x a = some t := by
  rcases hf : ts.edges.find? (fun e => decide (e.1 = x ∧ e.2.1 = a)) with - | e
  · have := List.find?_eq_none.mp hf _ h
    simp at this
  · have hm := List.mem_of_find?_eq_some hf
    have hp := List.find?_some hf
    simp only [decide_eq_true_eq] at hp
    have hmem : (x, a, e.2.2) ∈ ts.edges := by
      obtain ⟨e1, e2, e3⟩ := e
      obtain ⟨rfl, rfl⟩ := hp
      exact hm
    unfold stepTS
    rw [hf]
    exact congrArg some (hdet x a e.2.2 t hmem h)

theorem runTrace_append (ts : TS) (w w' : List Sym) : ∀ (x : Nat),
    runTrace ts x (w ++ w') =
      (runTrace ts x w).bind (fun pr =>
        (runTrace ts pr.2 w').map (fun pr2 => (pr.1 ++ pr2.1, pr2.2))) := by
  induction w with
  | nil =>
    intro x
    rw [List.nil_append, runTrace_nil, Option.some_bind]
    rcases runTrace ts x w' with - | pr2
    · rfl
    · simp
  | cons a w ih =>
    intro x
    rw [List.cons_append, runTrace_cons, runTrace_cons]
    rcases stepTS ts x a with - | t
    · simp
    · rw [Option.some_bind, Option.some_bind, ih t]
      rcases runTrace ts t w with - | pr
      · simp
      · simp only [Option.some_bind, Option.map_some', Option.map_map]
        apply congrArg (fun f => Option.map f (runTrace ts pr.2 w'))
        funext pr2
        simp [Function.comp]

theorem runTS_append (ts : TS) (x : Nat) (w w' : List Sym) :
    runTS ts x (w ++ w') = (runTS ts x w).bind (fun z => runTS ts z w') := by
  unfold runTS
  rw [runTrace_append]
  rcases runTrace ts x w with - | pr
  · rfl
  · rw [Option.some_bind, Option.map_some', Option.some_bind]
    rcases runTrace ts pr.2 w' with - | pr2
    · rw [Option.map_none', Option.map_none']
    · rw [Option.map_some', Option.map_some', Option.map_some']

theorem runTrace_length {ts : TS} {w : List Sym} : ∀ {x : Nat}
    {tr : List (Nat × Sym × Nat)} {y : Nat}, runTrace ts x w = some (tr, y) →
    tr.length = w.length := by
  induction w with
  | nil =>
    intro x tr y h
    rw [runTrace_nil] at h
    cases h
    rfl
  | cons a w ih =>
    intro x tr y h
    rw [runTrace_cons] at h
    rcases hs : stepTS ts x a with - | t <;> rw [hs] at h
    · exact absurd h (by simp)
    · rw [Option.some_bind] at h
      rcases hr : runTrace ts t w with - | pr <;> rw [hr] at h
      · exact absurd h (by simp)
      · obtain ⟨pr1, pr2⟩ := pr
        rw [Option.map_some'] at h
        simp only [Option.some.injEq, Prod.mk.injEq] at h
        rw [← h.1]
        simpa using ih hr

theorem runTrace_edges {ts : TS} {w : List Sym} : ∀ {x : Nat}
    {tr : List (Nat × Sym × Nat)} {y : Nat}, runTrace ts x w = some (tr, y) →
    ∀ e ∈ tr, e ∈ ts.edges := by
  induction w with
  | nil =>
    intro x tr y h
    rw [runTrace_nil] at h
    cases h
    intro e he
    simp at he
  | cons a w ih =>
    intro x tr y h
    rw [runTrace_cons] at h
    rcases hs : stepTS ts x a with - | t <;> rw [hs] at h
    · exact absurd h (by simp)
    · rw [Option.some_bind] at h
      rcases hr : runTrace ts t w with - | pr <;> rw [hr] at h
      · exact absurd h (by simp)
      · obtain ⟨pr1, pr2⟩ := pr
        rw [Option.map_some'] at h
        simp only [Option.some.injEq, Prod.mk.injEq] at h
        intro e he
        rw [← h.1] at he
        rcases List.mem_cons.mp he with rfl | he'
        · exact stepTS_mem hs
        · exact ih hr e he'

theorem runTrace_head_src {ts : TS} {z : Nat} {w : List Sym}
    {tr : List (Nat × Sym × Nat)} {y : Nat} (h : runTrace ts z w = some (tr, y))
    (h0 : 0 < tr.length) : (tr.get ⟨0, h0⟩).1 = z := by
  cases w with
  | nil =>
    rw [runTrace_nil] at h
    cases h
    simp at h0
  | cons a w =>
    rw [runTrace_cons] at h
    rcases hs : stepTS ts z a with - | t <;> rw [hs] at h
    · exact absurd h (by simp)
    · rw [Option.some_bind] at h
      rcases hr : runTrace ts t w with - | pr <;> rw [hr] at h
      · exact absurd h (by simp)
      · obtain ⟨pr1, pr2⟩ := pr
        rw [Option.map_some'] at h
        simp only [Option.some.injEq, Prod.mk.injEq] at h
        obtain ⟨h1, -⟩ := h
        subst h1
        rfl

theorem runTrace_decompose {ts : TS} {x : Nat} {w : List Sym}
    {tr : List (Nat × Sym × Nat)} {y : Nat} (h : runTrace ts x w = some (tr, y))
    (i : Nat) (hi : i ≤ w.length) :
    ∃ z tr₁ tr₂, runTrace ts x (w.take i) = some (tr₁, z) ∧
      runTrace ts z (w.drop i) = some (tr₂, y) ∧ tr = tr₁ ++ tr₂ ∧ tr₁.length = i := by
  have hsplit := runTrace_append ts (w.take i) (w.drop i) x
  rw [List.take_append_drop, h] at hsplit
  rcases h1 : runTrace ts x (w.take i) with - | pr1 <;> rw [h1] at hsplit
  · simp at hsplit
  · rw [Option.some_bind] at hsplit
    rcases h2 : runTrace ts pr1.2 (w.drop i) with - | pr2 <;> rw [h2] at hsplit
    · simp at hsplit
    · rw [Option.map_some'] at hsplit
      obtain ⟨pr11, pr12⟩ := pr1
      obtain ⟨pr21, pr22⟩ := pr2
      simp only [Option.some.injEq, Prod.mk.injEq] at hsplit
      refine ⟨pr12, pr11, pr21, rfl, ?_, hsplit.1, ?_⟩
      · rw [hsplit.2]
        exact h2
      · have := runTrace_length h1
        simpa [Nat.min_eq_left hi] using this

/-- The deduplicated list of sources of transitions; its length bounds the
length of a shortest connecting word. -/
def srcList (ts : TS) : List Nat := (ts.edges.map (fun e => e.1)).dedup

/-- A bound on the length of shortest paths in a transition system. -/
def srcBound (ts : TS) : Nat := (srcList ts).length

theorem run_shorten (ts : TS) (x y : Nat) :
    ∀ (n : Nat) (w : List Sym), w.length ≤ n → runTS ts x w = some y →
      ∃ w', runTS ts x w' = some y ∧ w'.length ≤ srcBound ts := by
  intro n
  induction n with
  | zero =>
    intro w hw h
    exact ⟨w, h, hw.trans (Nat.zero_le _)⟩
  | succ n ih =>
    intro w hw h
    by_cases hlen : w.length ≤ srcBound ts
    · exact ⟨w, h, hlen⟩
    · push_neg at hlen
      rcases hrt : runTrace ts x w with - | pr
      · unfold runTS at h
        rw [hrt] at h
        exact absurd h (by simp)
      · obtain ⟨tr, y'⟩ := pr
        have hy : y' = y := by
          unfold runTS at h
          rw [hrt] at h
          simpa using h
        rw [hy] at hrt
        have htrlen : tr.length = w.length := runTrace_length hrt
        have hsources_sub : ∀ z ∈ tr.map (fun e => e.1), z ∈ srcList ts := by
          intro z hz
          obtain ⟨e, he, rfl⟩ := List.mem_map.mp hz
          exact List.mem_dedup.mpr (List.mem_map.mpr ⟨e, runTrace_edges hrt e he, rfl⟩)
        have hsources_len : srcBound ts < (tr.map (fun e => e.1)).length := by
          rw [List.length_map, htrlen]
          exact hlen
        have hnotnodup : ¬ (tr.map (fun e => e.1)).Nodup := by
          intro hnd
          exact absurd ((hnd.subperm hsources_sub).length_le) (not_le.mpr hsources_len)
        rw [List.Nodup, List.pairwise_iff_getElem] at hnotnodup
        push_neg at hnotnodup
        obtain ⟨i, j, hi, hj, hij, heqz⟩ := hnotnodup
        rw [List.length_map] at hi hj
        rw [List.getElem_map, List.getElem_map] at heqz
        have hiw : i < w.length := htrlen ▸ hi
        have hjw : j < w.length := htrlen ▸ hj
        obtain ⟨z₁, tr₁, tr₂, hA, hB, htreq, hlen1⟩ :=
          runTrace_decompose hrt i (Nat.le_of_lt hiw)
        obtain ⟨z₂, tr₁', tr₂', hA', hB', htreq', hlen1'⟩ :=
          runTrace_decompose hrt j (Nat.le_of_lt hjw)
        have htr2pos : 0 < tr₂.length := by
          have := runTrace_length hB
          rw [List.length_drop] at this
          omega
        have htr2pos' : 0 < tr₂'.length := by
          have := runTrace_length hB'
          rw [List.length_drop] at this
          omega
        have hz₁ : tr[i].1 = z₁ := by
          have hget : tr[i] = tr₂.get ⟨0, htr2pos⟩ := by
            subst htreq
            rw [List.getElem_append_right (by omega)]
            simp [hlen1]
          rw [hget]
          exact runTrace_head_src hB htr2pos
        have hz₂ : tr[j].1 = z₂ := by
          have hget : tr[j] = tr₂'.get ⟨0, htr2pos'⟩ := by
            subst htreq'
            rw [List.getElem_append_right (by omega)]
            simp [hlen1']
          rw [hget]
          exact runTrace_head_src hB' htr2pos'
        have hzz : z₁ = z₂ := by rw [← hz₁, ← hz₂, heqz]
        have hrun' : runTS ts x (w.take i ++ w.drop j) = some y := by
          rw [runTS_append]
          have hA2 : runTS ts x (w.take i) = some z₁ := by
            unfold runTS
            rw [hA, Option.map_some']
          have hB2 : runTS ts z₂ (w.drop j) = some y := by
            unfold runTS
            rw [hB', Option.map_some']
          rw [hA2, Option.some_bind]
          rw [hzz]
          exact hB2
        refine ih (w.take i ++ w.drop j) ?_ hrun'
        rw [List.length_append, List.length_take, List.length_drop]
        omega

/-- The outgoing edges of a state in expression order, modelling the
deterministic edge iteration the spec requires (§4.2). -/
def edgesFromSorted (ts : TS) (x : Nat) : List (Nat × Sym × Nat) :=
  (ts.edges.filter (fun e => decide (e.1 = x))).mergeSort
    (fun e f => decide (e.2.1 ≤ f.2.1))

theorem mem_edgesFromSorted {ts : TS} {x : Nat} {e : Nat × Sym × Nat} :
    e ∈ edgesFromSorted ts x ↔ e ∈ ts.edges ∧ e.1 = x := by
  unfold edgesFromSorted
  rw [(List.mergeSort_perm _ _).mem_iff, List.mem_filter]
  simp

/-- Modelled from the spec: `word_from_to(x, y)` searches a word labelling a
path from `x` to `y`, trying the outgoing edges in expression order, with a
depth bound. -/
def findPath (ts : TS) (y : Nat) : Nat → Nat → Option (List Sym)
  | x, 0 => if x = y then some [] else none
  | x, fuel + 1 =>
    if x = y then some []
    else
      (edgesFromSorted ts x).findSome?
        (fun e => (findPath ts y e.2.2 fuel).map (fun w => e.2.1 :: w))

/-- `word_from_to` with the depth bound that suffices for any reachable
target (a shortest path repeats no source state). -/
def wordFromTo (ts : TS) (x y : Nat) : Option (List Sym) :=
  findPath ts y x (srcBound ts)

theorem findPath_sound {ts : TS} (hdet : TSDet ts) (y : Nat) :
    ∀ (fuel : Nat) (x : Nat) (w : List Sym), findPath ts y x fuel = some w →
      runTS ts x w = some y := by
  intro fuel
  induction fuel with
  | zero =>
    intro x w h
    simp only [findPath] at h
    split at h
    · next hxy =>
      cases h
      simp [runTS, runTrace_nil, hxy]
    · exact absurd h (by simp)
  | succ n ih =>
    intro x w h
    simp only [findPath] at h
    split at h
    · next hxy =>
      cases h
      simp [runTS, runTrace_nil, hxy]
    · obtain ⟨e, he, hfe⟩ := List.exists_of_findSome?_eq_some h
      obtain ⟨w', hw', hmap⟩ := Option.map_eq_some'.mp hfe
      obtain ⟨hee, hex⟩ := mem_edgesFromSorted.mp he
      obtain ⟨e1, e2, e3⟩ := e
      simp only at hex hw' hmap
      have hee' : (x, e2, e3) ∈ ts.edges := hex ▸ hee
      have hstep : stepTS ts x e2 = some e3 := stepTS_eq_some_of_mem hdet hee'
      have hrest := ih e3 w' hw'
      rw [← hmap]
      unfold runTS
      rw [runTrace_cons, hstep, Option.some_bind]
      unfold runTS at hrest
      rcases hr : runTrace ts e3 w' with - | pr <;> rw [hr] at hrest
      · exact absurd hrest (by simp)
      · rw [Option.map_some'] at hrest
        simp only [Option.some.injEq] at hrest
        rw [Option.map_some', Option.map_some']
        simp [hrest]

theorem findPath_complete {ts : TS} (y : Nat) :
    ∀ (fuel : Nat) (x : Nat) (w : List Sym), runTS ts x w = some y →
      w.length ≤ fuel → ∃ w', findPath ts y x fuel = some w' := by
  intro fuel
  induction fuel with
  | zero =>
    intro x w h hw
    have hnil : w = [] := List.length_eq_zero.mp (Nat.le_zero.mp hw)
    subst hnil
    have hxy : x = y := by
      simpa [runTS, runTrace_nil] using h
    exact ⟨[], by simp [findPath, hxy]⟩
  | succ n ih =>
    intro x w h hw
    by_cases hxy : x = y
    · exact ⟨[], by simp [findPath, hxy]⟩
    · cases w with
      | nil =>
        have : x = y := by simpa [runTS, runTrace_nil] using h
        exact absurd this hxy
      | cons a w =>
        unfold runTS at h
        rw [runTrace_cons] at h
        rcases hs : stepTS ts x a with - | t <;> rw [hs] at h
        · exact absurd h (by simp)
        · rw [Option.some_bind] at h
          have hrest : runTS ts t w = some y := by
            unfold runTS
            rcases hr : runTrace ts t w with - | pr <;> rw [hr] at h
            · exact absurd h (by simp)
            · rw [Option.map_some'] at h
              rw [Option.map_some']
              simpa using h
          obtain ⟨w', hw'⟩ := ih t w hrest (by simpa using Nat.le_of_succ_le_succ hw)
          have hmem : (x, a, t) ∈ edgesFromSorted ts x :=
            mem_edgesFromSorted.mpr ⟨stepTS_mem hs, rfl⟩
          simp only [findPath, if_neg hxy]
          rcases hfs : (edgesFromSorted ts x).findSome?
              (fun e => (findPath ts y e.2.2 n).map (fun w => e.2.1 :: w)) with - | wfound
          · exfalso
            have := List.findSome?_eq_none_iff.mp hfs _ hmem
            rw [hw'] at this
            simp at this
          · exact ⟨wfound, by simp [hfs]⟩

/-- Every state reachable from `x` is found by `word_from_to`, and the word
returned labels an actual path from `x` to `y`. -/
theorem wordFromTo_spec {ts : TS} (hdet : TSDet ts) {x y : Nat}
    (h : ∃ w, runTS ts x w = some y) :
    ∃ w, wordFromTo ts x y = some w ∧ runTS ts x w = some y := by
  obtain ⟨w, hw⟩ := h
  obtain ⟨w₁, hw₁, hlen⟩ := run_shorten ts x y w.length w (Nat.le_refl _) hw
  obtain ⟨w₂, hw₂⟩ := findPath_complete y (srcBound ts) x w₁ hw₁ hlen
  exact ⟨w₂, hw₂, findPath_sound hdet y (srcBound ts) x w₂ hw₂⟩

/-! ## The transition queue of `maximal_loop_from`

`Scc::maximal_loop_from` keeps a `BTreeMap` from states to the `BTreeSet` of
their unused interior transitions. The map is modelled as a key-sorted
association list; the sets as ordered lists. -/

abbrev MLQueue := List (Nat × List (Sym × Nat))

/-- The `BTreeSet` ordering on `(symbol, target)` pairs. -/
def pairLt (x y : Sym × Nat) : Bool :=
  decide (x.1 < y.1 ∨ (x.1 = y.1 ∧ x.2 < y.2))

/-- Ordered duplicate-free insertion into a transition set. -/
def insertPair (x : Sym × Nat) : List (Sym × Nat) → List (Sym × Nat)
  | [] => [x]
  | y :: ys =>
    if pairLt x y then x :: y :: ys else if x = y then y :: ys else y :: insertPair x ys

/-- Key-ordered insertion of one transition into the queue. -/
def insertQ : MLQueue → Nat → (Sym × Nat) → MLQueue
  | [], p, x => [(p, [x])]
  | (k, s) :: rest, p, x =>
    if p < k then (p, [x]) :: (k, s) :: rest
    else if p = k then (k, insertPair x s) :: rest
    else (k, s) :: insertQ rest p x

/-- Building the queue from the interior transitions (`maximal_loop_from`,
scc.rs lines 305–311). -/
def buildQueue (l : List (Nat × Sym × Nat)) : MLQueue :=
  l.foldl (fun Q tr => insertQ Q tr.1 (tr.2.1, tr.2.2)) []

/-- `BTreeMap::get`. -/
def getSet (Q : MLQueue) (p : Nat) : Option (List (Sym × Nat)) :=
  (Q.find? (fun pr => decide (pr.1 = p))).map (fun pr => pr.2)

/-- `BTreeMap::contains_key`. -/
def containsKeyQ (Q : MLQueue) (p : Nat) : Bool :=
  Q.any (fun pr => decide (pr.1 = p))

/-- `BTreeMap::remove` of a key. -/
def eraseKey (Q : MLQueue) (p : Nat) : MLQueue :=
  Q.filter (fun pr => !decide (pr.1 = p))

/-- Removal of one transition from the set stored at `p`. -/
def removePair (Q : MLQueue) (p : Nat) (x : Sym × Nat) : MLQueue :=
  Q.map (fun pr =>
    if pr.1 = p then (pr.1, pr.2.filter (fun y => !decide (y = x))) else pr)

/-- The transition `tr` is still stored in the queue. -/
def qMem (Q : MLQueue) (tr : Nat × Sym × Nat) : Prop :=
  ∃ pr ∈ Q, pr.1 = tr.1 ∧ (tr.2.1, tr.2.2) ∈ pr.2

/-- Total number of stored transitions. -/
def totalQ (Q : MLQueue) : Nat := (Q.map (fun pr => pr.2.length)).sum

/-- The keys of the queue. -/
def keysOf (Q : MLQueue) : List Nat := Q.map (fun pr => pr.1)

theorem qMem_nil (tr : Nat × Sym × Nat) : ¬ qMem [] tr := by
  rintro ⟨pr, hpr, -⟩
  simp at hpr

theorem qMem_cons {pr₀ : Nat × List (Sym × Nat)} {Q : MLQueue} {tr : Nat × Sym × Nat} :
    qMem (pr₀ :: Q) tr ↔
      (pr₀.1 = tr.1 ∧ (tr.2.1, tr.2.2) ∈ pr₀.2) ∨ qMem Q tr := by
  unfold qMem
  constructor
  · rintro ⟨pr, hpr, h1, h2⟩
    rcases List.mem_cons.mp hpr with rfl | hpr'
    · exact Or.inl ⟨h1, h2⟩
    · exact Or.inr ⟨pr, hpr', h1, h2⟩
  · rintro (⟨h1, h2⟩ | ⟨pr, hpr, h1, h2⟩)
    · exact ⟨pr₀, List.mem_cons_self _ _, h1, h2⟩
    · exact ⟨pr, List.mem_cons_of_mem _ hpr, h1, h2⟩

theorem mem_insertPair {x z : Sym × Nat} : ∀ {s : List (Sym × Nat)},
    z ∈ insertPair x s ↔ z = x ∨ z ∈ s := by
  intro s
  induction s with
  | nil => simp [insertPair]
  | cons y ys ih =>
    simp only [insertPair]
    split
    · simp [or_comm, or_left_comm]
    · split
      · next hxy =>
        subst hxy
        exact ⟨Or.inr, fun h => h.elim (fun hz => hz ▸ List.mem_cons_self _ _) id⟩
      · simp only [List.mem_cons, ih]
        tauto

theorem insertPair_ne_nil (x : Sym × Nat) (s : List (Sym × Nat)) :
    insertPair x s ≠ [] := by
  cases s with
  | nil => simp [insertPair]
  | cons y ys =>
    simp only [insertPair]
    split
    · simp
    · split <;> simp

theorem insertPair_length_le (x : Sym × Nat) : ∀ (s : List (Sym × Nat)),
    (insertPair x s).length ≤ s.length + 1 := by
  intro s
  induction s with
  | nil => simp [insertPair]
  | cons y ys ih =>
    simp only [insertPair]
    split
    · simp
    · split
      · simp
      · simpa using Nat.succ_le_succ ih

theorem keys_insertQ_subset {p : Nat} {x : Sym × Nat} : ∀ {Q : MLQueue} {z : Nat},
    z ∈ keysOf (insertQ Q p x) → z = p ∨ z ∈ keysOf Q := by
  intro Q
  induction Q with
  | nil =>
    intro z hz
    simp [insertQ, keysOf] at hz
    exact Or.inl hz
  | cons pr rest ih =>
    intro z hz
    obtain ⟨k, s⟩ := pr
    simp only [insertQ] at hz
    split at hz
    · simp only [keysOf, List.map_cons, List.mem_cons] at hz ⊢
      tauto
    · split at hz
      · next heq =>
        subst heq
        simp only [keysOf, List.map_cons, List.mem_cons] at hz ⊢
        tauto
      · simp only [keysOf, List.map_cons, List.mem_cons] at hz ⊢
        rcases hz with rfl | hz'
        · tauto
        · rcases ih hz' with rfl | h
          · exact Or.inl rfl
          · exact Or.inr (Or.inr h)

theorem insertQ_sorted {p : Nat} {x : Sym × Nat} : ∀ {Q : MLQueue},
    (keysOf Q).Pairwise (· < ·) → (keysOf (insertQ Q p x)).Pairwise (· < ·) := by
  intro Q
  induction Q with
  | nil =>
    intro _
    simp [insertQ, keysOf]
  | cons pr rest ih =>
    intro hs
    obtain ⟨k, s⟩ := pr
    simp only [keysOf, List.map_cons, List.pairwise_cons] at hs
    obtain ⟨hk, hrest⟩ := hs
    simp only [insertQ]
    split
    · next hpk =>
      simp only [keysOf, List.map_cons, List.pairwise_cons]
      refine ⟨?_, hk, hrest⟩
      intro z hz
      rcases List.mem_cons.mp hz with rfl | hz'
      · exact hpk
      · exact lt_trans hpk (hk z hz')
    · split
      · next heq =>
        simp only [keysOf, List.map_cons, List.pairwise_cons]
        exact ⟨hk, hrest⟩
      · next hpk heq =>
        simp only [keysOf, List.map_cons, List.pairwise_cons]
        refine ⟨?_, ih hrest⟩
        intro z hz
        rcases keys_insertQ_subset hz with rfl | hz'
        · omega
        · exact hk z hz'

theorem qEntry_iff_gen {p : Nat} {u : Sym} {n : Nat} {tr : Nat × Sym × Nat} :
    p = tr.1 ∧ (tr.2.1, tr.2.2) = (u, n) ↔ tr = (p, u, n) := by
  obtain ⟨t1, t2, t3⟩ := tr
  simp only [Prod.mk.injEq]
  constructor
  · rintro ⟨h1, h2⟩
    exact ⟨h1.symm, h2⟩
  · rintro ⟨h1, h2⟩
    exact ⟨h1.symm, h2⟩

theorem qMem_insertQ {p : Nat} {x : Sym × Nat} {tr : Nat × Sym × Nat} : ∀ {Q : MLQueue},
    qMem (insertQ Q p x) tr ↔ tr = (p, x.1, x.2) ∨ qMem Q tr := by
  intro Q
  induction Q with
  | nil =>
    simp only [insertQ]
    rw [qMem_cons]
    constructor
    · rintro (⟨h1, h2⟩ | h)
      · simp only [List.mem_singleton] at h2
        exact Or.inl (qEntry_iff_gen.mp ⟨h1, h2⟩)
      · exact absurd h (qMem_nil tr)
    · rintro (rfl | h)
      · exact Or.inl ⟨rfl, by simp⟩
      · exact absurd h (qMem_nil tr)
  | cons pr rest ih =>
    obtain ⟨k, s⟩ := pr
    simp only [insertQ]
    split
    · simp only [qMem_cons]
      constructor
      · rintro (⟨h1, h2⟩ | h)
        · simp only [List.mem_singleton] at h2
          exact Or.inl (qEntry_iff_gen.mp ⟨h1, h2⟩)
        · exact Or.inr h
      · rintro (rfl | h)
        · exact Or.inl ⟨rfl, by simp⟩
        · exact Or.inr h
    · split
      · next heq =>
        subst heq
        simp only [qMem_cons]
        constructor
        · rintro (⟨h1, h2⟩ | h)
          · rcases mem_insertPair.mp h2 with hx | h2'
            · exact Or.inl (qEntry_iff_gen.mp ⟨h1, hx⟩)
            · exact Or.inr (Or.inl ⟨h1, h2'⟩)
          · exact Or.inr (Or.inr h)
        · rintro (rfl | (⟨h1, h2⟩ | h))
          · exact Or.inl ⟨rfl, mem_insertPair.mpr (Or.inl rfl)⟩
          · exact Or.inl ⟨h1, mem_insertPair.mpr (Or.inr h2)⟩
          · exact Or.inr h
      · simp only [qMem_cons]
        rw [ih]
        tauto

theorem totalQ_insertQ_le (p : Nat) (x : Sym × Nat) : ∀ (Q : MLQueue),
    totalQ (insertQ Q p x) ≤ totalQ Q + 1 := by
  intro Q
  induction Q with
  | nil => simp [insertQ, totalQ]
  | cons pr rest ih =>
    obtain ⟨k, s⟩ := pr
    simp only [insertQ]
    split
    · simp only [totalQ, List.map_cons, List.sum_cons, List.length_singleton]
      omega
    · split
      · simp only [totalQ, List.map_cons, List.sum_cons]
        have := insertPair_length_le x s
        omega
      · simp only [totalQ, List.map_cons, List.sum_cons] at ih ⊢
        omega

theorem sets_insertQ_ne_nil {p : Nat} {x : Sym × Nat} : ∀ {Q : MLQueue},
    (∀ pr ∈ Q, pr.2 ≠ []) → ∀ pr ∈ insertQ Q p x, pr.2 ≠ [] := by
  intro Q
  induction Q with
  | nil =>
    intro _ pr hpr
    simp only [insertQ, List.mem_singleton] at hpr
    subst hpr
    simp
  | cons pr₀ rest ih =>
    intro h pr hpr
    obtain ⟨k, s⟩ := pr₀
    simp only [insertQ] at hpr
    split at hpr
    · rcases List.mem_cons.mp hpr with rfl | hpr'
      · simp
      · exact h pr hpr'
    · split at hpr
      · rcases List.mem_cons.mp hpr with rfl | hpr'
        · exact insertPair_ne_nil x s
        · exact h pr (List.mem_cons_of_mem _ hpr')
      · rcases List.mem_cons.mp hpr with rfl | hpr'
        · exact h (k, s) (List.mem_cons_self _ _)
        · exact ih (fun q hq => h q (List.mem_cons_of_mem _ hq)) pr hpr'

theorem buildQueue_props (l : List (Nat × Sym × Nat)) :
    (∀ tr, qMem (buildQueue l) tr ↔ tr ∈ l) ∧
    (keysOf (buildQueue l)).Pairwise (· < ·) ∧
    (∀ pr ∈ buildQueue l, pr.2 ≠ []) ∧
    totalQ (buildQueue l) ≤ l.length := by
  suffices h : ∀ (Q : MLQueue),
      (keysOf Q).Pairwise (· < ·) → (∀ pr ∈ Q, pr.2 ≠ []) →
      (∀ tr, qMem (l.foldl (fun Q tr => insertQ Q tr.1 (tr.2.1, tr.2.2)) Q) tr ↔
        qMem Q tr ∨ tr ∈ l) ∧
      (keysOf (l.foldl (fun Q tr => insertQ Q tr.1 (tr.2.1, tr.2.2)) Q)).Pairwise (· < ·) ∧
      (∀ pr ∈ l.foldl (fun Q tr => insertQ Q tr.1 (tr.2.1, tr.2.2)) Q, pr.2 ≠ []) ∧
      totalQ (l.foldl (fun Q tr => insertQ Q tr.1 (tr.2.1, tr.2.2)) Q) ≤ totalQ Q + l.length by
    obtain ⟨h1, h2, h3, h4⟩ := h [] (by simp [keysOf]) (by simp)
    refine ⟨?_, h2, h3, ?_⟩
    · intro tr
      rw [buildQueue, h1 tr]
      simp only [or_iff_right_iff_imp]
      intro habs
      exact absurd habs (qMem_nil tr)
    · simpa [totalQ] using h4
  induction l with
  | nil =>
    intro Q hs hne
    refine ⟨fun tr => by simp, hs, hne, by simp⟩
  | cons hd tl ih =>
    intro Q hs hne
    obtain ⟨ih1, ih2, ih3, ih4⟩ := ih (insertQ Q hd.1 (hd.2.1, hd.2.2))
      (insertQ_sorted hs) (sets_insertQ_ne_nil hne)
    refine ⟨?_, ih2, ih3, ?_⟩
    · intro tr
      rw [List.foldl_cons, ih1 tr, qMem_insertQ]
      have heta : (hd.1, hd.2.1, hd.2.2) = hd := rfl
      rw [heta]
      simp only [List.mem_cons]
      tauto
    · calc totalQ (List.foldl _ (insertQ Q hd.1 (hd.2.1, hd.2.2)) tl)
          ≤ totalQ (insertQ Q hd.1 (hd.2.1, hd.2.2)) + tl.length := ih4
        _ ≤ totalQ Q + 1 + tl.length := by
            have := totalQ_insertQ_le hd.1 (hd.2.1, hd.2.2) Q
            omega
        _ = totalQ Q + (hd :: tl).length := by simp; omega

theorem length_le_totalQ : ∀ {Q : MLQueue}, (∀ pr ∈ Q, pr.2 ≠ []) →
    Q.length ≤ totalQ Q := by
  intro Q
  induction Q with
  | nil => intro _; simp [totalQ]
  | cons pr rest ih =>
    intro h
    have h1 : 1 ≤ pr.2.length := by
      have := h pr (List.mem_cons_self _ _)
      cases hp : pr.2 with
      | nil => exact absurd hp this
      | cons a l => simp [hp]
    have := ih (fun q hq => h q (List.mem_cons_of_mem _ hq))
    simp only [totalQ, List.map_cons, List.sum_cons, List.length_cons] at this ⊢
    omega

theorem containsKeyQ_iff_keys {Q : MLQueue} {p : Nat} :
    containsKeyQ Q p = true ↔ p ∈ keysOf Q := by
  unfold containsKeyQ keysOf
  rw [List.any_eq_true]
  constructor
  · rintro ⟨pr, hpr, hp⟩
    simp only [decide_eq_true_eq] at hp
    exact List.mem_map.mpr ⟨pr, hpr, hp⟩
  · intro h
    obtain ⟨pr, hpr, hp⟩ := List.mem_map.mp h
    exact ⟨pr, hpr, by simp [hp]⟩

theorem getSet_isSome_of_containsKey {Q : MLQueue} {p : Nat}
    (h : containsKeyQ Q p = true) : ∃ s, getSet Q p = some s := by
  unfold containsKeyQ at h
  rw [List.any_eq_true] at h
  obtain ⟨pr, hpr, hp⟩ := h
  unfold getSet
  rcases hf : Q.find? (fun pr => decide (pr.1 = p)) with - | e
  · exact absurd hp (by simpa using List.find?_eq_none.mp hf pr hpr)
  · refine ⟨e.2, ?_⟩
    rw [hf]
    rfl

theorem containsKey_of_getSet {Q : MLQueue} {p : Nat} {s : List (Sym × Nat)}
    (h : getSet Q p = some s) : containsKeyQ Q p = true := by
  unfold getSet at h
  obtain ⟨e, he, -⟩ := Option.map_eq_some'.mp h
  unfold containsKeyQ
  rw [List.any_eq_true]
  refine ⟨e, List.mem_of_find?_eq_some he, ?_⟩
  have h2 := List.find?_some he
  simpa using h2

/-- Decomposing a queue with duplicate-free keys at a present key: the queue
splits around the unique entry for `p`, and `eraseKey` / `removePair` act on
that entry alone. -/
theorem queue_split {Q : MLQueue} {p : Nat} {s : List (Sym × Nat)}
    (hnd : (keysOf Q).Nodup) (h : getSet Q p = some s) :
    ∃ Q₁ Q₂, Q = Q₁ ++ (p, s) :: Q₂ ∧ (∀ pr ∈ Q₁, pr.1 ≠ p) ∧ (∀ pr ∈ Q₂, pr.1 ≠ p) ∧
      eraseKey Q p = Q₁ ++ Q₂ ∧
      ∀ x, removePair Q p x = Q₁ ++ (p, s.filter (fun y => !decide (y = x))) :: Q₂ := by
  induction Q with
  | nil => simp [getSet] at h
  | cons pr rest ih =>
    obtain ⟨k, t⟩ := pr
    by_cases hkp : k = p
    · subst hkp
      have hst : s = t := by
        unfold getSet at h
        rw [List.find?_cons_of_pos _ (by simp)] at h
        simpa using h.symm
      subst hst
      have hrest : ∀ pr ∈ rest, pr.1 ≠ k := by
        intro pr hpr habs
        simp only [keysOf, List.map_cons, List.nodup_cons] at hnd
        exact hnd.1 (habs ▸ List.mem_map.mpr ⟨pr, hpr, rfl⟩)
      refine ⟨[], rest, by simp, by simp, hrest, ?_, ?_⟩
      · unfold eraseKey
        rw [List.filter_cons_of_neg (by simp)]
        simp only [List.nil_append]
        exact List.filter_eq_self.mpr (fun pr hpr => by simp [hrest pr hpr])
      · intro x
        unfold removePair
        rw [List.map_cons]
        simp only [if_pos rfl, List.nil_append, List.cons.injEq]
        refine ⟨rfl, ?_⟩
        have : ∀ pr ∈ rest,
            (if pr.1 = k then (pr.1, pr.2.filter (fun y => !decide (y = x))) else pr) = pr :=
          fun pr hpr => if_neg (hrest pr hpr)
        rw [List.map_congr_left this]
        simp
    · have hget : getSet rest p = some s := by
        unfold getSet at h ⊢
        rw [List.find?_cons_of_neg _ (by simp [hkp])] at h
        exact h
      have hnd' : (keysOf rest).Nodup := by
        simp only [keysOf, List.map_cons, List.nodup_cons] at hnd
        exact hnd.2
      obtain ⟨Q₁, Q₂, heq, h1, h2, herase, hremove⟩ := ih hnd' hget
      refine ⟨(k, t) :: Q₁, Q₂, by rw [heq]; rfl, ?_, h2, ?_, ?_⟩
      · intro pr hpr
        rcases List.mem_cons.mp hpr with rfl | hpr'
        · exact hkp
        · exact h1 pr hpr'
      · unfold eraseKey
        rw [List.filter_cons_of_pos (by simp [hkp])]
        unfold eraseKey at herase
        rw [herase]
        rfl
      · intro x
        unfold removePair
        rw [List.map_cons, if_neg hkp]
        unfold removePair at hremove
        rw [hremove x]
        rfl

/-! ## `Scc::maximal_loop_from` (scc.rs lines 297–374) -/

/-- The interior transitions of a state set `S`: stored transitions whose
source and target both lie in `S` (`Scc::interior_transitions`,
scc.rs lines 222–241; edge colors are not modelled). -/
def interiorTrans (ts : TS) (S : List Nat) : List (Nat × Sym × Nat) :=
  ts.edges.filter (fun e => decide (e.1 ∈ S) && decide (e.2.2 ∈ S))

theorem mem_interiorTrans {ts : TS} {S : List Nat} {tr : Nat × Sym × Nat} :
    tr ∈ interiorTrans ts S ↔ tr ∈ ts.edges ∧ tr.1 ∈ S ∧ tr.2.2 ∈ S := by
  unfold interiorTrans
  rw [List.mem_filter]
  simp

/-- Reachability by a finite word. -/
def ReachTS (ts : TS) (x y : Nat) : Prop := ∃ w, runTS ts x w = some y

/-- `S` is the strongly connected component of some state: membership in `S`
is mutual reachability with that state. -/
def IsSCCof (ts : TS) (S : List Nat) : Prop :=
  ∃ x₀, ∀ y, y ∈ S ↔ (ReachTS ts x₀ y ∧ ReachTS ts y x₀)

theorem reachTS_refl (ts : TS) (x : Nat) : ReachTS ts x x :=
  ⟨[], by simp [runTS, runTrace_nil]⟩

theorem reachTS_trans {ts : TS} {x y z : Nat} (h₁ : ReachTS ts x y)
    (h₂ : ReachTS ts y z) : ReachTS ts x z := by
  obtain ⟨w₁, hw₁⟩ := h₁
  obtain ⟨w₂, hw₂⟩ := h₂
  exact ⟨w₁ ++ w₂, by rw [runTS_append, hw₁, Option.some_bind, hw₂]⟩

theorem scc_reach {ts : TS} {S : List Nat} (hscc : IsSCCof ts S) {x y : Nat}
    (hx : x ∈ S) (hy : y ∈ S) : ReachTS ts x y := by
  obtain ⟨x₀, h⟩ := hscc
  exact reachTS_trans ((h x).mp hx).2 ((h y).mp hy).1

/-- `find_or_first` on the transition set of the current state (scc.rs lines
326–331): prefer a transition leading back to `current`, else take the first
stored pair. -/
def mlPick (s : List (Sym × Nat)) (current : Nat) : Sym × Nat :=
  (s.find? (fun pr => decide (pr.2 = current))).getD (s.headD (0, 0))

theorem mlPick_mem {s : List (Sym × Nat)} {current : Nat} (h : s ≠ []) :
    mlPick s current ∈ s := by
  cases s with
  | nil => exact absurd rfl h
  | cons a l =>
    unfold mlPick
    rcases hf : (a :: l).find? (fun pr => decide (pr.2 = current)) with - | p
    · simp [hf]
    · simp only [hf, Option.getD_some]
      exact List.mem_of_find?_eq_some hf

/-- The jump target when `current` holds no unused transition (scc.rs lines
339–351): the first successor that is still a queue key, else the least
key of the queue. -/
def mlJump (ts : TS) (Q : MLQueue) (current : Nat) : Nat :=
  ((edgesFromSorted ts current).findSome? (fun e =>
    if containsKeyQ Q e.2.2 then some e.2.2 else none)).getD ((Q.headD (0, [])).1)

theorem containsKey_of_qMem {Q : MLQueue} {tr : Nat × Sym × Nat}
    (h : qMem Q tr) : containsKeyQ Q tr.1 = true := by
  obtain ⟨pr, hpr, h1, -⟩ := h
  unfold containsKeyQ
  rw [List.any_eq_true]
  exact ⟨pr, hpr, by simp [h1]⟩

theorem mlJump_containsKey (ts : TS) {Q : MLQueue} (current : Nat)
    (hne : Q ≠ []) : containsKeyQ Q (mlJump ts Q current) = true := by
  unfold mlJump
  rcases hf : (edgesFromSorted ts current).findSome? (fun e =>
      if containsKeyQ Q e.2.2 then some e.2.2 else none) with - | t
  · simp only [hf, Option.getD_none]
    cases Q with
    | nil => exact absurd rfl hne
    | cons pr rest => simp [containsKeyQ]
  · simp only [hf, Option.getD_some]
    obtain ⟨e, -, he⟩ := List.exists_of_findSome?_eq_some hf
    by_cases hc : containsKeyQ Q e.2.2 = true
    · rw [if_pos hc] at he
      cases he
      exact hc
    · rw [if_neg hc] at he
      cases he

/-- One iteration per fuel unit of the while loop of `maximal_loop_from`
(scc.rs lines 320–373), returning the part of the word still to be produced,
including the final jump back to `q₀`; `none` models a panic (a failed
`expect` on `word_from_to`) or fuel exhaustion. -/
def mlLoop (ts : TS) (q₀ : Nat) : Nat → MLQueue → Nat → Option (List Sym)
  | 0, _, _ => none
  | fuel + 1, Q, current =>
    if Q.isEmpty then
      if current = q₀ then some [] else wordFromTo ts current q₀
    else if containsKeyQ Q current then
      if ((getSet Q current).getD []).isEmpty then
        mlLoop ts q₀ fuel (eraseKey Q current) current
      else
        (mlLoop ts q₀ fuel
            (removePair Q current (mlPick ((getSet Q current).getD []) current))
            (mlPick ((getSet Q current).getD []) current).2).map
          (fun w => (mlPick ((getSet Q current).getD []) current).1 :: w)
    else
      if ((getSet Q (mlJump ts Q current)).getD []).isEmpty then
        mlLoop ts q₀ fuel (eraseKey Q (mlJump ts Q current)) current
      else
        (wordFromTo ts current (mlJump ts Q current)).bind (fun u =>
          (mlLoop ts q₀ fuel Q (mlJump ts Q current)).map (fun w => u ++ w))

theorem mlLoop_succ_eq (ts : TS) (q₀ fuel : Nat) (Q : MLQueue) (current : Nat) :
    mlLoop ts q₀ (fuel + 1) Q current =
      if Q.isEmpty then
        if current = q₀ then some [] else wordFromTo ts current q₀
      else if containsKeyQ Q current then
        if ((getSet Q current).getD []).isEmpty then
          mlLoop ts q₀ fuel (eraseKey Q current) current
        else
          (mlLoop ts q₀ fuel
              (removePair Q current (mlPick ((getSet Q current).getD []) current))
              (mlPick ((getSet Q current).getD []) current).2).map
            (fun w => (mlPick ((getSet Q current).getD []) current).1 :: w)
      else
        if ((getSet Q (mlJump ts Q current)).getD []).isEmpty then
          mlLoop ts q₀ fuel (eraseKey Q (mlJump ts Q current)) current
        else
          (wordFromTo ts current (mlJump ts Q current)).bind (fun u =>
            (mlLoop ts q₀ fuel Q (mlJump ts Q current)).map (fun w => u ++ w)) := rfl

/-- Fuel bounding the loop measure `2·totalQ + 2·#keys + 1`. -/
def mlFuel (ts : TS) (S : List Nat) : Nat := 4 * (interiorTrans ts S).length + 2

/-- `Scc::maximal_loop_from` (scc.rs lines 297–374). The outer `Option` is
`none` when the Rust code panics (the `assert!`s on entry or a failed
`expect`); the inner `Option` is the function's return value. -/
def maximalLoopFrom (ts : TS) (S : List Nat) (q₀ : Nat) : Option (Option (List Sym)) :=
  if q₀ ∈ S then
    if (buildQueue (interiorTrans ts S)).isEmpty then some none
    else if containsKeyQ (buildQueue (interiorTrans ts S)) q₀ then
      (mlLoop ts q₀ (mlFuel ts S) (buildQueue (interiorTrans ts S)) q₀).map some
    else none
  else none

theorem totalQ_append (Q₁ Q₂ : MLQueue) :
    totalQ (Q₁ ++ Q₂) = totalQ Q₁ + totalQ Q₂ := by
  simp [totalQ]

theorem totalQ_cons (pr : Nat × List (Sym × Nat)) (Q : MLQueue) :
    totalQ (pr :: Q) = pr.2.length + totalQ Q := by
  simp [totalQ]

theorem keysOf_append (Q₁ Q₂ : MLQueue) :
    keysOf (Q₁ ++ Q₂) = keysOf Q₁ ++ keysOf Q₂ := by
  simp [keysOf]

theorem keysOf_cons (pr : Nat × List (Sym × Nat)) (Q : MLQueue) :
    keysOf (pr :: Q) = pr.1 :: keysOf Q := by
  simp [keysOf]

theorem qMem_append {Q₁ Q₂ : MLQueue} {tr : Nat × Sym × Nat} :
    qMem (Q₁ ++ Q₂) tr ↔ qMem Q₁ tr ∨ qMem Q₂ tr := by
  unfold qMem
  constructor
  · rintro ⟨pr, hpr, hp⟩
    rcases List.mem_append.mp hpr with h | h
    · exact Or.inl ⟨pr, h, hp⟩
    · exact Or.inr ⟨pr, h, hp⟩
  · rintro (⟨pr, hpr, hp⟩ | ⟨pr, hpr, hp⟩)
    · exact ⟨pr, List.mem_append.mpr (Or.inl hpr), hp⟩
    · exact ⟨pr, List.mem_append.mpr (Or.inr hpr), hp⟩

theorem containsKeyQ_eq_false_iff {Q : MLQueue} {p : Nat} :
    containsKeyQ Q p = false ↔ ∀ pr ∈ Q, pr.1 ≠ p := by
  unfold containsKeyQ
  rw [List.any_eq_false]
  simp

theorem totalQ_mid (Q₁ Q₂ : MLQueue) (p : Nat) (s : List (Sym × Nat)) :
    totalQ (Q₁ ++ (p, s) :: Q₂) = totalQ Q₁ + s.length + totalQ Q₂ := by
  rw [totalQ_append, totalQ_cons]
  show totalQ Q₁ + (s.length + totalQ Q₂) = totalQ Q₁ + s.length + totalQ Q₂
  omega

/-- Invariant of the while loop: whenever the queue stores only interior
transitions of the SCC `S`, its keys are duplicate-free, the current state is
in `S`, and the fuel exceeds the measure `2·totalQ + 2·#keys + jump-pending`,
the loop terminates with a word running from `current` back to `q₀` whose
trace covers every transition still stored in the queue. -/
theorem mlLoop_spec {ts : TS} {S : List Nat} (hdet : TSDet ts)
    (hscc : IsSCCof ts S) {q₀ : Nat} (hq₀ : q₀ ∈ S) :
    ∀ (fuel : Nat) (Q : MLQueue) (current : Nat),
      current ∈ S →
      (∀ tr, qMem Q tr → tr ∈ interiorTrans ts S) →
      (keysOf Q).Nodup →
      2 * totalQ Q + 2 * Q.length +
        (if containsKeyQ Q current = true then 0 else 1) < fuel →
      ∃ w trc, mlLoop ts q₀ fuel Q current = some w ∧
        runTrace ts current w = some (trc, q₀) ∧
        ∀ tr, qMem Q tr → tr ∈ trc := by
  intro fuel
  induction fuel with
  | zero =>
    intro Q current _ _ _ hm
    omega
  | succ fuel ih =>
    intro Q current hcur hQint hQnd hm
    rw [mlLoop_succ_eq]
    by_cases hemp : Q.isEmpty = true
    · rw [if_pos hemp]
      have hQnil : Q = [] := by
        cases Q with
        | nil => rfl
        | cons a l => simp at hemp
      subst hQnil
      by_cases hcq : current = q₀
      · rw [if_pos hcq]
        subst hcq
        exact ⟨[], [], rfl, runTrace_nil ts current,
          fun tr htr => absurd htr (qMem_nil tr)⟩
      · rw [if_neg hcq]
        obtain ⟨u, hu, huRun⟩ := wordFromTo_spec hdet (scc_reach hscc hcur hq₀)
        rw [hu]
        unfold runTS at huRun
        obtain ⟨pr, hpr, hpr2⟩ := Option.map_eq_some'.mp huRun
        refine ⟨u, pr.1, rfl, ?_, fun tr htr => absurd htr (qMem_nil tr)⟩
        rw [hpr]
        exact congrArg some (by rw [← hpr2])
    · rw [if_neg hemp]
      have hQne : Q ≠ [] := by
        intro h
        subst h
        exact hemp rfl
      by_cases hck : containsKeyQ Q current = true
      · rw [if_pos hck]
        obtain ⟨s, hsget⟩ := getSet_isSome_of_containsKey hck
        obtain ⟨Q₁, Q₂, hrep, h1, h2, herase, hremove⟩ := queue_split hQnd hsget
        simp only [hsget, Option.getD_some]
        have hint' : ∀ tr, qMem (Q₁ ++ Q₂) tr → tr ∈ interiorTrans ts S := by
          intro tr htr
          apply hQint
          rw [hrep]
          rcases qMem_append.mp htr with h | h
          · exact qMem_append.mpr (Or.inl h)
          · exact qMem_append.mpr (Or.inr (qMem_cons.mpr (Or.inr h)))
        have hnd' : (keysOf (Q₁ ++ Q₂)).Nodup := by
          have h := hQnd
          rw [hrep, keysOf_append, keysOf_cons] at h
          rw [keysOf_append]
          rw [List.nodup_middle] at h
          exact h.of_cons
        have ht0 : totalQ Q = totalQ Q₁ + s.length + totalQ Q₂ := by
          rw [hrep, totalQ_mid]
        have hl0 : Q.length = Q₁.length + Q₂.length + 1 := by
          rw [hrep]
          simp only [List.length_append, List.length_cons]
          omega
        rw [if_pos hck] at hm
        by_cases hsemp : s.isEmpty = true
        · rw [if_pos hsemp, herase]
          have hsnil : s = [] := by
            cases s with
            | nil => rfl
            | cons a l => simp at hsemp
          subst hsnil
          have hckF : containsKeyQ (Q₁ ++ Q₂) current = false := by
            rw [containsKeyQ_eq_false_iff]
            intro pr hpr
            rcases List.mem_append.mp hpr with h | h
            · exact h1 pr h
            · exact h2 pr h
          have hm' : 2 * totalQ (Q₁ ++ Q₂) + 2 * (Q₁ ++ Q₂).length +
              (if containsKeyQ (Q₁ ++ Q₂) current = true then 0 else 1) < fuel := by
            rw [if_neg (by simp [hckF])]
            rw [totalQ_append]
            simp only [List.length_append]
            simp only [List.length_nil] at ht0
            omega
          obtain ⟨w, trc, heq, hrun, hcov⟩ := ih (Q₁ ++ Q₂) current hcur hint' hnd' hm'
          refine ⟨w, trc, heq, hrun, ?_⟩
          intro tr htr
          apply hcov
          rw [hrep] at htr
          rcases qMem_append.mp htr with h | h
          · exact qMem_append.mpr (Or.inl h)
          · rcases qMem_cons.mp h with ⟨-, habs⟩ | h'
            · simp at habs
            · exact qMem_append.mpr (Or.inr h')
        · rw [if_neg hsemp]
          have hsne : s ≠ [] := by
            intro h
            subst h
            exact hsemp rfl
          have hpick : mlPick s current ∈ s := mlPick_mem hsne
          have hqmemp : qMem Q (current, (mlPick s current).1, (mlPick s current).2) := by
            rw [hrep]
            refine qMem_append.mpr (Or.inr (qMem_cons.mpr (Or.inl ⟨rfl, ?_⟩)))
            simpa using hpick
          have hintp := hQint _ hqmemp
          rw [mem_interiorTrans] at hintp
          obtain ⟨hedge, -, htgtS⟩ := hintp
          have hstep : stepTS ts current (mlPick s current).1 =
              some (mlPick s current).2 := stepTS_eq_some_of_mem hdet hedge
          have hrem := hremove (mlPick s current)
          have hint' : ∀ tr,
              qMem (Q₁ ++ (current,
                s.filter (fun y => !decide (y = mlPick s current))) :: Q₂) tr →
              tr ∈ interiorTrans ts S := by
            intro tr htr
            apply hQint
            rw [hrep]
            rcases qMem_append.mp htr with h | h
            · exact qMem_append.mpr (Or.inl h)
            · rcases qMem_cons.mp h with ⟨hh1, hh2⟩ | h'
              · refine qMem_append.mpr (Or.inr (qMem_cons.mpr (Or.inl ⟨hh1, ?_⟩)))
                exact (List.mem_filter.mp hh2).1
              · exact qMem_append.mpr (Or.inr (qMem_cons.mpr (Or.inr h')))
          have hnd' : (keysOf (Q₁ ++ (current,
              s.filter (fun y => !decide (y = mlPick s current))) :: Q₂)).Nodup := by
            have hk : keysOf (Q₁ ++ (current,
                s.filter (fun y => !decide (y = mlPick s current))) :: Q₂) = keysOf Q := by
              rw [hrep]
              unfold keysOf
              simp
            rw [hk]
            exact hQnd
          have hm' : 2 * totalQ (Q₁ ++ (current,
              s.filter (fun y => !decide (y = mlPick s current))) :: Q₂) +
              2 * (Q₁ ++ (current,
                s.filter (fun y => !decide (y = mlPick s current))) :: Q₂).length +
              (if containsKeyQ (Q₁ ++ (current,
                s.filter (fun y => !decide (y = mlPick s current))) :: Q₂)
                  (mlPick s current).2 = true then 0 else 1) < fuel := by
            have hflt : (s.filter (fun y => !decide (y = mlPick s current))).length <
                s.length :=
              List.length_filter_lt_length_iff_exists.mpr ⟨mlPick s current, hpick, by simp⟩
            rw [totalQ_mid]
            simp only [List.length_append, List.length_cons]
            have hind : (if containsKeyQ (Q₁ ++ (current,
                s.filter (fun y => !decide (y = mlPick s current))) :: Q₂)
                  (mlPick s current).2 = true then 0 else 1) ≤ 1 := by
              split
              · omega
              · omega
            omega
          obtain ⟨w, trc, heq, hrun, hcov⟩ :=
            ih _ _ htgtS hint' hnd' hm'
          refine ⟨(mlPick s current).1 :: w,
            (current, (mlPick s current).1, (mlPick s current).2) :: trc, ?_, ?_, ?_⟩
          · rw [hrem, heq, Option.map_some']
          · rw [runTrace_cons, hstep, Option.some_bind, hrun, Option.map_some']
          · intro tr htr
            rw [hrep] at htr
            rcases qMem_append.mp htr with h | h
            · exact List.mem_cons_of_mem _ (hcov tr (qMem_append.mpr (Or.inl h)))
            · rcases qMem_cons.mp h with ⟨hh1, hh2⟩ | h'
              · by_cases hx : (tr.2.1, tr.2.2) = mlPick s current
                · have htr' : tr = (current, (mlPick s current).1, (mlPick s current).2) :=
                    qEntry_iff_gen.mp ⟨hh1, by rw [hx]⟩
                  rw [htr']
                  exact List.mem_cons_self _ _
                · refine List.mem_cons_of_mem _ (hcov tr ?_)
                  refine qMem_append.mpr (Or.inr (qMem_cons.mpr (Or.inl ⟨hh1, ?_⟩)))
                  rw [List.mem_filter]
                  exact ⟨hh2, by simp [hx]⟩
              · exact List.mem_cons_of_mem _
                  (hcov tr (qMem_append.mpr (Or.inr (qMem_cons.mpr (Or.inr h')))))
      · rw [if_neg hck]
        have hckcur : containsKeyQ Q current = false := Bool.eq_false_iff.mpr hck
        have hckq : containsKeyQ Q (mlJump ts Q current) = true :=
          mlJump_containsKey ts current hQne
        generalize hj : mlJump ts Q current = j at hckq ⊢
        obtain ⟨s, hsget⟩ := getSet_isSome_of_containsKey hckq
        obtain ⟨Q₁, Q₂, hrep, h1, h2, herase, hremove⟩ := queue_split hQnd hsget
        simp only [hsget, Option.getD_some]
        rw [if_neg hck] at hm
        have ht0 : totalQ Q = totalQ Q₁ + s.length + totalQ Q₂ := by
          rw [hrep, totalQ_mid]
        have hl0 : Q.length = Q₁.length + Q₂.length + 1 := by
          rw [hrep]
          simp only [List.length_append, List.length_cons]
          omega
        by_cases hsemp : s.isEmpty = true
        · rw [if_pos hsemp, herase]
          have hsnil : s = [] := by
            cases s with
            | nil => rfl
            | cons a l => simp at hsemp
          subst hsnil
          have hint' : ∀ tr, qMem (Q₁ ++ Q₂) tr → tr ∈ interiorTrans ts S := by
            intro tr htr
            apply hQint
            rw [hrep]
            rcases qMem_append.mp htr with h | h
            · exact qMem_append.mpr (Or.inl h)
            · exact qMem_append.mpr (Or.inr (qMem_cons.mpr (Or.inr h)))
          have hnd' : (keysOf (Q₁ ++ Q₂)).Nodup := by
            have h := hQnd
            rw [hrep, keysOf_append, keysOf_cons] at h
            rw [keysOf_append]
            rw [List.nodup_middle] at h
            exact h.of_cons
          have hckF : containsKeyQ (Q₁ ++ Q₂) current = false := by
            rw [containsKeyQ_eq_false_iff]
            rw [containsKeyQ_eq_false_iff] at hckcur
            intro pr hpr
            apply hckcur
            rw [hrep]
            rcases List.mem_append.mp hpr with h | h
            · exact List.mem_append_left _ h
            · exact List.mem_append_right _ (List.mem_cons_of_mem _ h)
          have hm' : 2 * totalQ (Q₁ ++ Q₂) + 2 * (Q₁ ++ Q₂).length +
              (if containsKeyQ (Q₁ ++ Q₂) current = true then 0 else 1) < fuel := by
            rw [if_neg (by simp [hckF])]
            rw [totalQ_append]
            simp only [List.length_append]
            simp only [List.length_nil] at ht0
            omega
          obtain ⟨w, trc, heq, hrun, hcov⟩ := ih (Q₁ ++ Q₂) current hcur hint' hnd' hm'
          refine ⟨w, trc, heq, hrun, ?_⟩
          intro tr htr
          apply hcov
          rw [hrep] at htr
          rcases qMem_append.mp htr with h | h
          · exact qMem_append.mpr (Or.inl h)
          · rcases qMem_cons.mp h with ⟨-, habs⟩ | h'
            · simp at habs
            · exact qMem_append.mpr (Or.inr h')
        · rw [if_neg hsemp]
          have hsne : s ≠ [] := by
            intro h
            subst h
            exact hsemp rfl
          obtain ⟨y, hy⟩ : ∃ y, y ∈ s := List.exists_mem_of_ne_nil s hsne
          have hqmem : qMem Q (j, y.1, y.2) := by
            rw [hrep]
            exact qMem_append.mpr (Or.inr (qMem_cons.mpr (Or.inl ⟨rfl, by simpa using hy⟩)))
          have hqS : j ∈ S :=
            (mem_interiorTrans.mp (hQint _ hqmem)).2.1
          obtain ⟨u, hu, huRun⟩ := wordFromTo_spec hdet (scc_reach hscc hcur hqS)
          rw [hu, Option.some_bind]
          have hm' : 2 * totalQ Q + 2 * Q.length +
              (if containsKeyQ Q j = true then 0 else 1) < fuel := by
            rw [if_pos hckq]
            omega
          obtain ⟨w, trc, heq, hrun, hcov⟩ := ih Q _ hqS hQint hQnd hm'
          unfold runTS at huRun
          obtain ⟨pru, hpru, hpru2⟩ := Option.map_eq_some'.mp huRun
          refine ⟨u ++ w, pru.1 ++ trc, ?_, ?_, ?_⟩
          · rw [heq, Option.map_some']
          · rw [runTrace_append, hpru, Option.some_bind, hpru2, hrun, Option.map_some']
          · intro tr htr
            exact List.mem_append_right _ (hcov tr htr)

/-- C5: For every strongly connected component `S` of a (deterministic)
transition system and every state `q ∈ S`: `maximal_loop_from(q)` returns
`None` exactly when `S` is transient (`interior_transitions()` is empty);
otherwise it returns `Some(w)` where `w` labels a closed walk from `q` back
to `q` whose trace uses every interior transition of `S` at least once
(and no `assert!` or `expect` panics). -/
theorem maximal_loop_from_spec (ts : TS) (S : List Nat) (q : Nat)
    (hdet : TSDet ts) (hscc : IsSCCof ts S) (hq : q ∈ S) :
    (interiorTrans ts S = [] → maximalLoopFrom ts S q = some none) ∧
    (interiorTrans ts S ≠ [] →
      ∃ w trc, maximalLoopFrom ts S q = some (some w) ∧
        runTrace ts q w = some (trc, q) ∧
        ∀ tr ∈ interiorTrans ts S, tr ∈ trc) := by
  obtain ⟨hmem, hsort, hsets, htot⟩ := buildQueue_props (interiorTrans ts S)
  constructor
  · intro h0
    unfold maximalLoopFrom
    rw [if_pos hq, h0]
    rfl
  · intro hne0
    unfold maximalLoopFrom
    rw [if_pos hq]
    generalize hQg : buildQueue (interiorTrans ts S) = Q
    rw [hQg] at hmem hsort hsets htot
    have hQne : Q ≠ [] := by
      obtain ⟨tr, htr⟩ := List.exists_mem_of_ne_nil _ hne0
      intro h
      subst h
      exact qMem_nil tr ((hmem tr).mpr htr)
    have hQnd : (keysOf Q).Nodup := hsort.imp (fun h => Nat.ne_of_lt h)
    obtain ⟨tr₀, htr₀⟩ := List.exists_mem_of_ne_nil _ hne0
    have h0 := mem_interiorTrans.mp htr₀
    obtain ⟨w₀, hw₀⟩ : ReachTS ts q tr₀.1 := scc_reach hscc hq h0.2.1
    have hsome : ∃ a t, stepTS ts q a = some t ∧ (q, a, t) ∈ interiorTrans ts S := by
      cases w₀ with
      | nil =>
        have hq1 : q = tr₀.1 := by simpa [runTS, runTrace_nil] using hw₀
        refine ⟨tr₀.2.1, tr₀.2.2, ?_, ?_⟩
        · apply stepTS_eq_some_of_mem hdet
          rw [hq1]
          exact h0.1
        · rw [hq1]
          exact htr₀
      | cons a w' =>
        unfold runTS at hw₀
        rw [runTrace_cons] at hw₀
        rcases hs : stepTS ts q a with - | t <;> rw [hs] at hw₀
        · exact absurd hw₀ (by simp)
        · rw [Option.some_bind] at hw₀
          have hqt : ReachTS ts q t :=
            ⟨[a], by simp [runTS, runTrace_cons, hs, runTrace_nil]⟩
          have htT : ReachTS ts t tr₀.1 := by
            refine ⟨w', ?_⟩
            unfold runTS
            rcases hr : runTrace ts t w' with - | pr <;> rw [hr] at hw₀
            · exact absurd hw₀ (by simp)
            · rw [Option.map_some', Option.map_some'] at hw₀
              rw [Option.map_some']
              simpa using hw₀
          obtain ⟨x₀, hx₀⟩ := hscc
          have htS : t ∈ S := (hx₀ t).mpr
            ⟨reachTS_trans ((hx₀ q).mp hq).1 hqt,
             reachTS_trans htT ((hx₀ tr₀.1).mp h0.2.1).2⟩
          exact ⟨a, t, hs, mem_interiorTrans.mpr ⟨stepTS_mem hs, hq, htS⟩⟩
    obtain ⟨a, t, -, hintq⟩ := hsome
    have hckq : containsKeyQ Q q = true :=
      containsKey_of_qMem ((hmem (q, a, t)).mpr hintq)
    have hQemp : Q.isEmpty = false := by
      cases Q with
      | nil => exact absurd rfl hQne
      | cons pr rest => rfl
    rw [if_neg (by simp [hQemp]), if_pos hckq]
    have hlen : Q.length ≤ totalQ Q := length_le_totalQ hsets
    have hmsr : 2 * totalQ Q + 2 * Q.length +
        (if containsKeyQ Q q = true then 0 else 1) < mlFuel ts S := by
      rw [if_pos hckq]
      unfold mlFuel
      omega
    obtain ⟨w, trc, heq, hrun, hcov⟩ := mlLoop_spec hdet hscc hq (mlFuel ts S) Q q hq
      (fun tr htr => (hmem tr).mp htr) hQnd hmsr
    refine ⟨w, trc, ?_, hrun, ?_⟩
    · rw [heq, Option.map_some']
    · intro tr htr
      exact hcov tr ((hmem tr).mpr htr)

/-- A one-state transition system with a single self-loop, whose state set
`[0]` is a non-transient SCC. -/
def mlTs : TS := { edges := [(0, 0, 0)] }

theorem mlTs_det : TSDet mlTs := by
  intro p a t t' h1 h2
  have h1' : (p, a, t) ∈ [((0 : Nat), (0 : Sym), (0 : Nat))] := h1
  have h2' : (p, a, t') ∈ [((0 : Nat), (0 : Sym), (0 : Nat))] := h2
  simp only [List.mem_singleton, Prod.mk.injEq] at h1' h2'
  omega

theorem mlTs_run0 : ∀ (w : List Sym) (y : Nat), runTS mlTs 0 w = some y → y = 0 := by
  intro w
  induction w with
  | nil =>
    intro y h
    simp [runTS, runTrace_nil] at h
    omega
  | cons a w ih =>
    intro y h
    unfold runTS at h
    rw [runTrace_cons] at h
    rcases hs : stepTS mlTs 0 a with - | t <;> rw [hs] at h
    · exact absurd h (by simp)
    · have hmem1 : (0, a, t) ∈ mlTs.edges := stepTS_mem hs
      have hmem2 : (0, a, t) ∈ [((0 : Nat), (0 : Sym), (0 : Nat))] := hmem1
      simp only [List.mem_singleton, Prod.mk.injEq] at hmem2
      obtain ⟨-, -, ht⟩ := hmem2
      subst ht
      rw [Option.some_bind] at h
      apply ih y
      unfold runTS
      rcases hr : runTrace mlTs 0 w with - | pr <;> rw [hr] at h
      · exact absurd h (by simp)
      · rw [Option.map_some', Option.map_some'] at h
        rw [Option.map_some']
        simpa using h

theorem mlTs_scc : IsSCCof mlTs [0] := by
  refine ⟨0, ?_⟩
  intro y
  constructor
  · intro hy
    have hy0 : y = 0 := by simpa using hy
    subst hy0
    exact ⟨reachTS_refl mlTs 0, reachTS_refl mlTs 0⟩
  · rintro ⟨⟨w, hw⟩, -⟩
    have := mlTs_run0 w y hw
    simp [this]

/-- Witness: `maximal_loop_from_spec` applied to the one-state self-loop
system, its SCC `[0]` and the state `0`. -/
theorem maximal_loop_from_spec_witness :
    (interiorTrans mlTs [0] = [] → maximalLoopFrom mlTs [0] 0 = some none) ∧
    (interiorTrans mlTs [0] ≠ [] →
      ∃ w trc, maximalLoopFrom mlTs [0] 0 = some (some w) ∧
        runTrace mlTs 0 w = some (trc, 0) ∧
        ∀ tr ∈ interiorTrans mlTs [0], tr ∈ trc) :=
  maximal_loop_from_spec mlTs [0] 0 mlTs_det mlTs_scc (by decide)

end Ralf
